import Mathlib

/-!
# Verification of the HTML diff & annotation engine

Shallow embedding, over `List Char`, of the diff/annotation core of
`.github/scripts/highlight-html-changes.py` (class `HTMLDiffer`), together with
the pieces of the Python standard library the script's behaviour depends on
(`difflib.SequenceMatcher`, `html.unescape`, `re` substitution templates), and
proofs and refutations of the specified properties.
-/

/- `Rat.inv` and `Rat.mul` are `@[irreducible]` in Batteries, which blocks
evaluation of concrete rational arithmetic (similarity ratios, thresholds) in
`decide` proofs; restore the kernel-visible reducibility locally. -/
set_option allowUnsafeReducibility true

attribute [local semireducible] Rat.inv Rat.mul Rat.div Rat.add Rat.sub
  Rat.ofScientific

namespace PSW

/-- Strings are modelled as lists of characters. -/
abbrev Str := List Char

/-- Coerce a Lean string literal to the `List Char` representation. -/
def str (s : String) : Str := s.data

/-- Dropping a prefix never lengthens a list (used in termination proofs). -/
def dropWhileLenLe (p : Char → Bool) (l : List Char) : (l.dropWhile p).length ≤ l.length := by
  induction l with
  | nil => simp [List.dropWhile]
  | cons a t ih =>
    rw [List.dropWhile]
    split
    · simp; omega
    · simp

/-- Whitespace, as matched by the regex class `\s` and by `str.strip()`
(ASCII part; the documents handled here contain only ASCII whitespace). -/
def pySpace (c : Char) : Bool :=
  c == ' ' || c == '\t' || c == '\n' || c == '\r' || c == '\x0b' || c == '\x0c'

/-- Python `str.strip()` with no arguments: drop leading and trailing whitespace. -/
def pyStrip (s : Str) : Str :=
  ((s.dropWhile pySpace).reverse.dropWhile pySpace).reverse

/-- Python slice `text[a:b]` for `0 ≤ a ≤ b` (empty when `b ≤ a`). -/
def pySlice (text : Str) (a b : ℕ) : Str := (text.drop a).take (b - a)

/-- Modelled from the Python stdlib: `html.unescape`, restricted to the five
predefined XML entities written with a trailing semicolon (`&amp;` `&lt;`
`&gt;` `&quot;` `&#39;`).  A bare ampersand passes through unchanged exactly
as in the stdlib; the stdlib's remaining named and numeric references are NOT
modelled and pass through undecoded here — none of the inputs in this
development use them. -/
def unescapeGo : ℕ → Str → Str
  | 0, s => s
  | _ + 1, [] => []
  | fuel + 1, c :: rest =>
    if c = '&' then
      if (str "amp;").isPrefixOf rest then '&' :: unescapeGo fuel (rest.drop 4)
      else if (str "lt;").isPrefixOf rest then '<' :: unescapeGo fuel (rest.drop 3)
      else if (str "gt;").isPrefixOf rest then '>' :: unescapeGo fuel (rest.drop 3)
      else if (str "quot;").isPrefixOf rest then '"' :: unescapeGo fuel (rest.drop 5)
      else if (str "#39;").isPrefixOf rest then '\'' :: unescapeGo fuel (rest.drop 4)
      else c :: unescapeGo fuel rest
    else c :: unescapeGo fuel rest

def unescapeHtml (s : Str) : Str := unescapeGo s.length s

/-- Scan of `re.sub(r'<[^>]+>', '', s)` (`HTMLDiffer.extract_text_from_element`,
first step).  At a `'<'` the tag pattern matches up to the first following
`'>'` provided at least one character lies between; matched tags are dropped,
all other characters (including an unmatched `'<'`) are kept. -/
def removeTagsGo : ℕ → Str → Str
  | 0, s => s
  | _ + 1, [] => []
  | fuel + 1, c :: rest =>
    if c = '<' then
      match rest.dropWhile (· != '>') with
      | [] => '<' :: removeTagsGo fuel rest
      | _ :: after =>
        if rest.takeWhile (· != '>') = [] then '<' :: removeTagsGo fuel rest
        else removeTagsGo fuel after
    else c :: removeTagsGo fuel rest

def removeTags (s : Str) : Str := removeTagsGo s.length s

/-- `HTMLDiffer.extract_text_from_element`: remove tags, decode entities, strip. -/
def extractTextFromElement (elementHtml : Str) : Str :=
  pyStrip (unescapeHtml (removeTags elementHtml))

/-- Scan of `re.findall(r'(<[^>]+>|[^<]+)', s)` (`HTMLDiffer.highlight_html_diff`,
line 100): split markup into tag tokens and text tokens.  A `'<'` that does not
begin a well-formed tag matches neither alternative and is skipped (dropped)
by `findall`. -/
def tokenizeHtmlGo : ℕ → Str → List Str
  | 0, _ => []
  | _ + 1, [] => []
  | fuel + 1, c :: rest =>
    if c = '<' then
      match rest.dropWhile (· != '>') with
      | [] => tokenizeHtmlGo fuel rest
      | _ :: after =>
        let mid := rest.takeWhile (· != '>')
        if mid = [] then tokenizeHtmlGo fuel rest
        else ('<' :: (mid ++ ['>'])) :: tokenizeHtmlGo fuel after
    else
      ((c :: rest).takeWhile (· != '<')) :: tokenizeHtmlGo fuel ((c :: rest).dropWhile (· != '<'))

def tokenizeHtml (s : Str) : List Str := tokenizeHtmlGo s.length s

/-- Scan of `re.findall(r'\S+|\s+', text)`: split a text into alternating
maximal runs of non-whitespace and whitespace characters. -/
def splitRunsGo : ℕ → Str → List Str
  | 0, _ => []
  | _ + 1, [] => []
  | fuel + 1, c :: rest =>
    if pySpace c then
      ((c :: rest).takeWhile pySpace) :: splitRunsGo fuel ((c :: rest).dropWhile pySpace)
    else
      ((c :: rest).takeWhile (fun x => !pySpace x)) ::
        splitRunsGo fuel ((c :: rest).dropWhile (fun x => !pySpace x))

def splitRuns (s : Str) : List Str := splitRunsGo s.length s

end PSW

namespace PSW.SeqM

/-!
Modelled from the Python stdlib: `difflib.SequenceMatcher` with `isjunk = None`
(the only form the script uses: `SequenceMatcher(None, a, b)`), so the junk set
is always empty. "Autojunk" is kept: elements of `b` occurring more than
`len(b) // 100` times when `len(b) >= 200` are removed from the index `b2j`.
-/

variable {α : Type} [DecidableEq α]

/-- Ascending positions of `x` in `b` (the lists stored in `b2j`). -/
def positions (b : List α) (x : α) : List ℕ :=
  (List.range b.length).filter (fun j => b.get? j == some x)

/-- The index `b2j` after `__chain_b`: positions of each element, with popular
elements (autojunk) removed. -/
def b2j (b : List α) (x : α) : List ℕ :=
  if b.length ≥ 200 ∧ b.count x > b.length / 100 then [] else positions b x

/-- Column positions visited in one row of `find_longest_match`'s inner loop:
the `b2j` entry of `a[i]`, restricted to `blo ≤ j < bhi` (the loop `continue`s
on `j < blo` and `break`s on `j ≥ bhi`; the list is ascending). -/
def rowCols (bj : α → List ℕ) (x : α) (blo bhi : ℕ) : List ℕ :=
  (bj x).filter (fun j => decide (blo ≤ j) && decide (j < bhi))

/-- One inner-loop step of `find_longest_match`: `k = j2len.get(j-1, 0) + 1`
(reading the previous row) and best-match update on strictly larger `k`. -/
def colStep (oldf : ℕ → ℕ) (i : ℕ) (st : ℕ × ℕ × ℕ) (j : ℕ) : ℕ × ℕ × ℕ :=
  let k := (if j = 0 then 0 else oldf (j - 1)) + 1
  if k > st.2.2 then (i + 1 - k, j + 1 - k, k) else st

/-- The columns visited in row `i`: the `b2j` entry of `a[i]` restricted to
the window, empty when `i` is out of range. -/
def rowColsAt (bj : α → List ℕ) (blo bhi : ℕ) (a : List α) (i : ℕ) : List ℕ :=
  match a.get? i with
  | some x => rowCols bj x blo bhi
  | none => []

/-- The `newj2len` built by one row: `newj2len[j] = j2len.get(j-1, 0) + 1` for
visited columns, absent (0) elsewhere.  The dictionary is only read in the
following row, so it can be built in one step. -/
def nextRowF (cols : List ℕ) (f : ℕ → ℕ) : ℕ → ℕ :=
  fun j => if j ∈ cols then (if j = 0 then 0 else f (j - 1)) + 1 else 0

/-- The row loop of `find_longest_match`: fold over the rows, carrying the
best match and the previous row's `j2len` (as a total function, default 0). -/
def flmRows (bj : α → List ℕ) (blo bhi : ℕ) (a : List α) :
    List ℕ → (ℕ × ℕ × ℕ) → (ℕ → ℕ) → ℕ × ℕ × ℕ
  | [], best, _ => best
  | i :: rest, best, f =>
    flmRows bj blo bhi a rest
      ((rowColsAt bj blo bhi a i).foldl (colStep f i) best)
      (nextRowF (rowColsAt bj blo bhi a i) f)

/-- The dynamic-programming part of `find_longest_match` (before the
extension loops): best match starts as `(alo, blo, 0)`. -/
def flmLoop (a : List α) (bj : α → List ℕ) (alo ahi blo bhi : ℕ) : ℕ × ℕ × ℕ :=
  flmRows bj blo bhi a (List.range' alo (ahi - alo)) (alo, blo, 0) (fun _ => 0)

/-- First extension loop of `find_longest_match`: extend the best match
backwards over equal elements (the junk set is empty, so `not isbjunk(...)`
always holds). -/
def extendBack (a b : List α) (alo blo : ℕ) : ℕ → ℕ → ℕ → ℕ × ℕ × ℕ
  | 0, j, k => (0, j, k)
  | i + 1, j, k =>
    if alo < i + 1 ∧ blo < j ∧ a.get? i = b.get? (j - 1) ∧ (a.get? i).isSome then
      extendBack a b alo blo i (j - 1) (k + 1)
    else (i + 1, j, k)

/-- Second extension loop of `find_longest_match`: extend forwards over equal
elements, returning the extended size.  The loop runs while `i + k < ahi`, so
`ahi - (i + k)` counts the remaining iterations exactly and recursion on it is
faithful. -/
def extendFwdGo (a b : List α) (ahi bhi i j : ℕ) : ℕ → ℕ → ℕ
  | 0, k => k
  | fuel + 1, k =>
    if i + k < ahi ∧ j + k < bhi ∧ a.get? (i + k) = b.get? (j + k) ∧ (a.get? (i + k)).isSome
    then extendFwdGo a b ahi bhi i j fuel (k + 1)
    else k

def extendFwd (a b : List α) (ahi bhi : ℕ) (i j k : ℕ) : ℕ :=
  extendFwdGo a b ahi bhi i j (ahi - (i + k)) k

/-- `SequenceMatcher.find_longest_match(alo, ahi, blo, bhi)` with empty junk:
the DP loop followed by the two (non-junk) extension loops; the two junk
extension loops never run because `isbjunk` is constantly false. -/
def flmAfterBack (a b : List α) (alo ahi blo bhi : ℕ) : ℕ × ℕ × ℕ :=
  extendBack a b alo blo (flmLoop a (b2j b) alo ahi blo bhi).1
    (flmLoop a (b2j b) alo ahi blo bhi).2.1 (flmLoop a (b2j b) alo ahi blo bhi).2.2

def findLongestMatch (a b : List α) (alo ahi blo bhi : ℕ) : ℕ × ℕ × ℕ :=
  ((flmAfterBack a b alo ahi blo bhi).1, (flmAfterBack a b alo ahi blo bhi).2.1,
    extendFwd a b ahi bhi (flmAfterBack a b alo ahi blo bhi).1
      (flmAfterBack a b alo ahi blo bhi).2.1 (flmAfterBack a b alo ahi blo bhi).2.2)

/-- Invariant of a candidate match `(i, j, k)` during `find_longest_match`:
it stays inside the requested window. -/
def BestInv (alo ahi blo bhi : ℕ) (best : ℕ × ℕ × ℕ) : Prop :=
  alo ≤ best.1 ∧ best.1 + best.2.2 ≤ ahi ∧ blo ≤ best.2.1 ∧ best.2.1 + best.2.2 ≤ bhi

/-- Invariant of a `j2len` row: all run lengths are at most the number of
processed rows `m`, and a positive entry at `j` fits inside `[blo, j]`. -/
def RowFInv (blo m : ℕ) (f : ℕ → ℕ) : Prop :=
  ∀ j, f j ≤ m ∧ (0 < f j → blo ≤ j ∧ f j ≤ j + 1 - blo)

/-- Every visited column lies in the window. -/
def rowColsAtMem (bj : α → List ℕ) (blo bhi : ℕ) (a : List α) (i : ℕ) :
    ∀ j ∈ rowColsAt bj blo bhi a i, blo ≤ j ∧ j < bhi := by
  intro j hj
  unfold rowColsAt at hj
  rcases hget : a.get? i with _ | x <;> rw [hget] at hj
  · simp at hj
  · unfold rowCols at hj
    rw [List.mem_filter] at hj
    have := hj.2
    simp at this
    exact this

/-- The inner-column fold preserves the window invariant of the best match. -/
def colsFoldInv (f : ℕ → ℕ) (i alo ahi blo bhi m : ℕ)
    (hf : RowFInv blo m f) (hi1 : m + alo ≤ i) (hi2 : i < ahi) :
    ∀ (cols : List ℕ) (best : ℕ × ℕ × ℕ),
      (∀ j ∈ cols, blo ≤ j ∧ j < bhi) →
      BestInv alo ahi blo bhi best →
      BestInv alo ahi blo bhi (cols.foldl (colStep f i) best)
  | [], _, _, hb => hb
  | j :: rest, best, hc, hb => by
    rw [List.foldl_cons]
    apply colsFoldInv f i alo ahi blo bhi m hf hi1 hi2 rest
    · intro j' hj'
      exact hc j' (List.mem_cons_of_mem _ hj')
    · obtain ⟨hbj, hjb⟩ := hc j (List.mem_cons_self _ _)
      obtain ⟨h1, h2, h3, h4⟩ := hb
      unfold colStep
      obtain ⟨hfb, hfp⟩ := hf (j - 1)
      set kv := (if j = 0 then 0 else f (j - 1)) with hkv
      have hkv1 : kv ≤ m := by
        rw [hkv]
        split
        · omega
        · exact hfb
      have hkx : kv + 1 ≤ j + 1 - blo := by
        rw [hkv]
        split
        · omega
        · rcases Nat.eq_zero_or_pos (f (j - 1)) with hz | hp
          · omega
          · obtain ⟨hpb, hpf⟩ := hfp hp
            omega
      by_cases hgt : kv + 1 > best.2.2
      · rw [if_pos hgt]
        unfold BestInv
        refine ⟨?_, ?_, ?_, ?_⟩ <;> simp <;> omega
      · rw [if_neg hgt]
        exact ⟨h1, h2, h3, h4⟩

/-- The row fold preserves the window invariant of the best match. -/
def flmRowsInv (a : List α) (bj : α → List ℕ) (blo bhi alo ahi : ℕ) :
    ∀ (rows : List ℕ) (m : ℕ) (best : ℕ × ℕ × ℕ) (f : ℕ → ℕ),
      (∀ i ∈ rows, i < ahi ∧ m + alo ≤ i) →
      rows.Pairwise (· < ·) →
      RowFInv blo m f →
      BestInv alo ahi blo bhi best →
      BestInv alo ahi blo bhi (flmRows bj blo bhi a rows best f)
  | [], _, _, _, _, _, _, hb => hb
  | i :: rest, m, best, f, hrow, hpw, hf, hb => by
    rw [flmRows]
    have hi := hrow i (List.mem_cons_self _ _)
    apply flmRowsInv a bj blo bhi alo ahi rest (m + 1)
    · intro i' hi'
      have h1 := (hrow i' (List.mem_cons_of_mem _ hi')).1
      have h2 := (List.pairwise_cons.mp hpw).1 i' hi'
      exact ⟨h1, by omega⟩
    · exact (List.pairwise_cons.mp hpw).2
    · intro j
      unfold nextRowF
      split
      · rename_i hjc
        obtain ⟨hbj, hjb⟩ := rowColsAtMem bj blo bhi a i j hjc
        obtain ⟨hfb, hfp⟩ := hf (j - 1)
        set kv := (if j = 0 then 0 else f (j - 1)) with hkv
        have hkv1 : kv ≤ m := by
          rw [hkv]
          split
          · omega
          · exact hfb
        have hkx : kv + 1 ≤ j + 1 - blo := by
          rw [hkv]
          split
          · omega
          · rcases Nat.eq_zero_or_pos (f (j - 1)) with hz | hp
            · omega
            · obtain ⟨hpb, hpf⟩ := hfp hp
              omega
        exact ⟨by omega, fun _ => ⟨hbj, by omega⟩⟩
      · exact ⟨by omega, by omega⟩
    · exact colsFoldInv f i alo ahi blo bhi m hf hi.2 hi.1 _ best
        (rowColsAtMem bj blo bhi a i) hb

/-- The backward extension keeps the window invariant and preserves the match
end positions `i + k` and `j + k`. -/
def extendBackInv (a b : List α) (alo blo : ℕ) :
    ∀ (i j k : ℕ), alo ≤ i → blo ≤ j →
      (extendBack a b alo blo i j k).1 + (extendBack a b alo blo i j k).2.2 = i + k ∧
      (extendBack a b alo blo i j k).2.1 + (extendBack a b alo blo i j k).2.2 = j + k ∧
      alo ≤ (extendBack a b alo blo i j k).1 ∧ blo ≤ (extendBack a b alo blo i j k).2.1
  | 0, j, k, hi, hj => by
    rw [extendBack]
    exact ⟨rfl, rfl, hi, hj⟩
  | i + 1, j, k, hi, hj => by
    rw [extendBack]
    split
    · rename_i hcond
      have := extendBackInv a b alo blo i (j - 1) (k + 1) (by omega) (by omega)
      refine ⟨by omega, by omega, this.2.2.1, this.2.2.2⟩
    · exact ⟨rfl, rfl, hi, hj⟩

/-- The forward extension keeps the match inside the window. -/
def extendFwdGoInv (a b : List α) (ahi bhi i j : ℕ) :
    ∀ (fuel k : ℕ), i + k ≤ ahi → j + k ≤ bhi →
      i + extendFwdGo a b ahi bhi i j fuel k ≤ ahi ∧
      j + extendFwdGo a b ahi bhi i j fuel k ≤ bhi ∧
      k ≤ extendFwdGo a b ahi bhi i j fuel k
  | 0, k, hi, hj => by
    rw [extendFwdGo]
    exact ⟨hi, hj, le_refl k⟩
  | fuel + 1, k, hi, hj => by
    rw [extendFwdGo]
    split
    · rename_i hcond
      have := extendFwdGoInv a b ahi bhi i j fuel (k + 1) (by omega) (by omega)
      exact ⟨this.1, this.2.1, by omega⟩
    · exact ⟨hi, hj, le_refl k⟩

def extendFwdInv (a b : List α) (ahi bhi : ℕ) (i j k : ℕ) (hi : i + k ≤ ahi)
    (hj : j + k ≤ bhi) :
    i + extendFwd a b ahi bhi i j k ≤ ahi ∧
    j + extendFwd a b ahi bhi i j k ≤ bhi ∧
    k ≤ extendFwd a b ahi bhi i j k :=
  extendFwdGoInv a b ahi bhi i j (ahi - (i + k)) k hi hj

/-- The DP loop keeps the best match inside the window. -/
def flmLoopInv (a b : List α) (alo ahi blo bhi : ℕ) (h1 : alo ≤ ahi) (h2 : blo ≤ bhi) :
    BestInv alo ahi blo bhi (flmLoop a (b2j b) alo ahi blo bhi) := by
  unfold flmLoop
  apply flmRowsInv a (b2j b) blo bhi alo ahi _ 0
  · intro i hi
    rw [List.mem_range'_1] at hi
    exact ⟨by omega, by omega⟩
  · exact List.pairwise_lt_range' alo (ahi - alo) 1 (by omega)
  · intro j
    constructor
    · simp
    · intro hpos
      simp at hpos
  · exact ⟨le_refl alo, by simpa using h1, le_refl blo, by simpa using h2⟩

/-- `find_longest_match` returns a match inside the requested window. -/
def flmInv (a b : List α) (alo ahi blo bhi : ℕ) (h1 : alo ≤ ahi) (h2 : blo ≤ bhi) :
    BestInv alo ahi blo bhi (findLongestMatch a b alo ahi blo bhi) := by
  obtain ⟨g1, g2, g3, g4⟩ := flmLoopInv a b alo ahi blo bhi h1 h2
  have hb := extendBackInv a b alo blo (flmLoop a (b2j b) alo ahi blo bhi).1
    (flmLoop a (b2j b) alo ahi blo bhi).2.1 (flmLoop a (b2j b) alo ahi blo bhi).2.2 g1 g3
  rw [show extendBack a b alo blo (flmLoop a (b2j b) alo ahi blo bhi).1
      (flmLoop a (b2j b) alo ahi blo bhi).2.1 (flmLoop a (b2j b) alo ahi blo bhi).2.2
      = flmAfterBack a b alo ahi blo bhi from rfl] at hb
  obtain ⟨hb1, hb2, hb3, hb4⟩ := hb
  obtain ⟨hf1, hf2, hf3⟩ := extendFwdInv a b ahi bhi (flmAfterBack a b alo ahi blo bhi).1
    (flmAfterBack a b alo ahi blo bhi).2.1 (flmAfterBack a b alo ahi blo bhi).2.2
    (by omega) (by omega)
  exact ⟨hb3, hf1, hb4, hf2⟩

/-- With an empty window on either side, `find_longest_match` finds nothing. -/
def flmDegenerate (a b : List α) (alo ahi blo bhi : ℕ) (h : ahi ≤ alo ∨ bhi ≤ blo) :
    (findLongestMatch a b alo ahi blo bhi).2.2 = 0 := by
  have h0 : flmLoop a (b2j b) alo ahi blo bhi = (alo, blo, 0) := by
    rcases h with h | h
    · unfold flmLoop
      have hrows : ahi - alo = 0 := by omega
      rw [hrows]
      simp only [List.range']
      rw [flmRows]
    · have hcols : ∀ i, rowColsAt (b2j b) blo bhi a i = [] := by
        intro i
        unfold rowColsAt
        rcases hget : a.get? i with _ | x
        · rfl
        · unfold rowCols
          apply List.filter_eq_nil.mpr
          intro j _
          simp
          omega
      have hrows : ∀ (rows : List ℕ) (f : ℕ → ℕ),
          flmRows (b2j b) blo bhi a rows (alo, blo, 0) f = (alo, blo, 0) := by
        intro rows
        induction rows with
        | nil => intro f; rw [flmRows]
        | cons i rest ih =>
          intro f
          rw [flmRows, hcols i]
          simp only [List.foldl_nil]
          exact ih _
      unfold flmLoop
      exact hrows _ _
  have h1 : flmAfterBack a b alo ahi blo bhi = (alo, blo, 0) := by
    unfold flmAfterBack
    rw [h0]
    show extendBack a b alo blo alo blo 0 = (alo, blo, 0)
    cases alo with
    | zero => rw [extendBack]
    | succ t =>
      rw [extendBack]
      rw [if_neg]
      intro hcon
      exact absurd hcon.1 (lt_irrefl _)
  unfold findLongestMatch
  rw [h1]
  show extendFwd a b ahi bhi alo blo 0 = 0
  unfold extendFwd
  rcases hf : ahi - (alo + 0) with _ | f
  · rw [extendFwdGo]
  · rw [extendFwdGo]
    rw [if_neg]
    intro hcon
    rcases h with h | h
    · omega
    · have := hcon.2.1
      omega

/-- The recursive decomposition of `get_matching_blocks`: find the longest
match, recurse on what lies to its left and to its right.  The Python code
drives this with an explicit stack and sorts afterwards; the decomposition is
the same and this recursion emits the blocks directly in sorted order. -/
def mbGo (a b : List α) : ℕ → ℕ → ℕ → ℕ → ℕ → List (ℕ × ℕ × ℕ)
  | 0, _, _, _, _ => []
  | fuel + 1, alo, ahi, blo, bhi =>
    match findLongestMatch a b alo ahi blo bhi with
    | (i, j, k) =>
      if k = 0 then []
      else
        (if alo < i ∧ blo < j then mbGo a b fuel alo i blo j else []) ++
          (i, j, k) ::
            (if i + k < ahi ∧ j + k < bhi then mbGo a b fuel (i + k) ahi (j + k) bhi
            else [])

def matchingBlocksRec (a b : List α) (alo ahi blo bhi : ℕ) : List (ℕ × ℕ × ℕ) :=
  mbGo a b ((ahi - alo) + (bhi - blo)) alo ahi blo bhi

/-- The merge pass of `get_matching_blocks`: adjacent blocks are coalesced;
a pending block is emitted when the next one is not adjacent. -/
def mergeBlocks : ℕ × ℕ × ℕ → List (ℕ × ℕ × ℕ) → List (ℕ × ℕ × ℕ)
  | (i1, j1, k1), [] => if k1 ≠ 0 then [(i1, j1, k1)] else []
  | (i1, j1, k1), (i2, j2, k2) :: rest =>
    if i1 + k1 = i2 ∧ j1 + k1 = j2 then mergeBlocks (i1, j1, k1 + k2) rest
    else (if k1 ≠ 0 then [(i1, j1, k1)] else []) ++ mergeBlocks (i2, j2, k2) rest

/-- `SequenceMatcher.get_matching_blocks`: the sorted decomposition, merged,
with the terminating sentinel `(la, lb, 0)`. -/
def getMatchingBlocks (a b : List α) : List (ℕ × ℕ × ℕ) :=
  mergeBlocks (0, 0, 0) (matchingBlocksRec a b 0 a.length 0 b.length) ++
    [(a.length, b.length, 0)]

/-- Total number of matched elements (the `matches` of `SequenceMatcher.ratio`). -/
def totalMatched (a b : List α) : ℕ :=
  ((getMatchingBlocks a b).map (fun bl => bl.2.2)).sum

/-- `SequenceMatcher.ratio()`: `2.0 * matches / (len(a) + len(b))`, and 1.0
when both sequences are empty (`_calculate_ratio`).  Modelled exactly over
`ℚ` where the script computes an IEEE double; the script only compares the
ratio against the literals 0.5, 0.95 and 0.99, and those comparisons agree
with the exact rational ones except in the hairline case where the correctly
rounded double of `2m/(la+lb)` and of the decimal literal coincide while the
rationals differ — none of the inputs in this development are within rounding
distance of a threshold. -/
def ratioQ (a b : List α) : ℚ :=
  if a.length + b.length = 0 then 1
  else (2 * totalMatched a b : ℚ) / (a.length + b.length : ℚ)

/-- Opcode tags of `SequenceMatcher.get_opcodes`. -/
inductive OpTag
  | equal
  | replace
  | delete
  | insert
deriving DecidableEq, Repr

/-- The cursor loop of `get_opcodes`: for each matching block, first the
non-equal opcode covering the gap before it (tagged by which sides are
nonempty), then an `equal` opcode for the block itself if it has size. -/
def opcodesGo : ℕ → ℕ → List (ℕ × ℕ × ℕ) → List (OpTag × ℕ × ℕ × ℕ × ℕ)
  | _, _, [] => []
  | i, j, (ai, bjj, size) :: rest =>
    (if i < ai ∧ j < bjj then [(OpTag.replace, i, ai, j, bjj)]
     else if i < ai then [(OpTag.delete, i, ai, j, bjj)]
     else if j < bjj then [(OpTag.insert, i, ai, j, bjj)]
     else []) ++
    (if size ≠ 0 then [(OpTag.equal, ai, ai + size, bjj, bjj + size)] else []) ++
    opcodesGo (ai + size) (bjj + size) rest

/-- `SequenceMatcher.get_opcodes`. -/
def getOpcodes (a b : List α) : List (OpTag × ℕ × ℕ × ℕ × ℕ) :=
  opcodesGo 0 0 (getMatchingBlocks a b)

end PSW.SeqM

namespace PSW

open SeqM (OpTag)

/-- The highlight wrapper opened for word-level `replace` runs. -/
def markChanged : Str := str "<mark class=\"preview-text-changed\">"

/-- The highlight wrapper opened for word-level `insert` runs. -/
def markAdded : Str := str "<mark class=\"preview-text-added\">"

/-- The highlight wrapper opened around a whole added element. -/
def markElemAdded : Str := str "<mark class=\"preview-element-added\">"

/-- The closing highlight wrapper. -/
def markClose : Str := str "</mark>"

/-- Rank of the opcode tag under Python's string comparison of the tag names
(`'delete' < 'equal' < 'insert' < 'replace'`), used when ranges are sorted as
tuples. -/
def opTagRank : OpTag → ℕ
  | .delete => 0
  | .equal => 1
  | .insert => 2
  | .replace => 3

/-- Lexicographic comparison of `(start, end, tag)` triples, as Python's
`list.sort()` compares the tuples in `apply_highlights_to_text`. -/
def tripleLe (x y : ℕ × ℕ × OpTag) : Bool :=
  decide (x.1 < y.1) ||
    (decide (x.1 = y.1) &&
      (decide (x.2.1 < y.2.1) ||
        (decide (x.2.1 = y.2.1) && decide (opTagRank x.2.2 ≤ opTagRank y.2.2))))

/-- Insertion into a sorted list of triples (stable, matching Python's sort). -/
def insTriple (x : ℕ × ℕ × OpTag) : List (ℕ × ℕ × OpTag) → List (ℕ × ℕ × OpTag)
  | [] => [x]
  | y :: rest => if tripleLe x y then x :: y :: rest else y :: insTriple x rest

/-- `overlapping.sort()`: sort the overlap triples (insertion sort computes the
same list as Python's stable sort, the order being total on the full tuples). -/
def sortTriples : List (ℕ × ℕ × OpTag) → List (ℕ × ℕ × OpTag)
  | [] => []
  | x :: rest => insTriple x (sortTriples rest)

/-- The overlap computation of `apply_highlights_to_text`: ranges that
intersect `[tpos, tpos + len text)`, clipped to offsets inside the text
(`max(0, start - text_start_pos)` is natural subtraction). -/
def overlapsOf (text : Str) (tpos : ℕ) (ranges : List (ℕ × ℕ × OpTag)) :
    List (ℕ × ℕ × OpTag) :=
  ranges.filterMap fun r =>
    if r.1 < tpos + text.length ∧ tpos < r.2.1 then
      some (r.1 - tpos, min text.length (r.2.1 - tpos), r.2.2)
    else none

/-- The output loop of `apply_highlights_to_text`: unchanged text before each
overlap, the overlap wrapped according to its change type, then the tail. -/
def ahGo (text : Str) : ℕ → List (ℕ × ℕ × OpTag) → Str
  | lastEnd, [] => text.drop lastEnd
  | lastEnd, (os, oe, t) :: rest =>
    (if lastEnd < os then pySlice text lastEnd os else []) ++
      (if t = OpTag.replace then markChanged ++ pySlice text os oe ++ markClose
       else if t = OpTag.insert then markAdded ++ pySlice text os oe ++ markClose
       else []) ++
      ahGo text oe rest

/-- `HTMLDiffer.apply_highlights_to_text`: whitespace-only text is returned
unchanged; otherwise overlapping ranges are computed, sorted, and wrapped. -/
def applyHighlightsToText (text : Str) (tpos : ℕ) (ranges : List (ℕ × ℕ × OpTag)) : Str :=
  if pyStrip text = [] then text
  else
    let ov := overlapsOf text tpos ranges
    if ov = [] then text
    else ahGo text 0 (sortTriples ov)

/-- Total length of a token list (`len(''.join(ws))`). -/
def sumLens (ws : List Str) : ℕ := (ws.map List.length).sum

/-- The changed-range computation of `highlight_html_diff`: one range per
`replace` or `insert` opcode, with character offsets obtained by summing the
lengths of the preceding new tokens. -/
def changedRangesOf (oldWords newWords : List Str) : List (ℕ × ℕ × OpTag) :=
  (SeqM.getOpcodes oldWords newWords).filterMap fun op =>
    if op.1 = OpTag.replace ∨ op.1 = OpTag.insert then
      some (sumLens (newWords.take op.2.2.2.1), sumLens (newWords.take op.2.2.2.2), op.1)
    else none

/-- The token walk of `highlight_html_diff`: tags (tokens starting with `'<'`)
pass through and do not advance the text position; text tokens are highlighted
and advance it by their raw length. -/
def hhdWalk (ranges : List (ℕ × ℕ × OpTag)) : List Str → ℕ → Str
  | [], _ => []
  | tok :: rest, pos =>
    match tok with
    | '<' :: _ => tok ++ hhdWalk ranges rest pos
    | _ => applyHighlightsToText tok pos ranges ++ hhdWalk ranges rest (pos + tok.length)

/-- `HTMLDiffer.highlight_html_diff`. -/
def highlightHtmlDiff (oldHtml newHtml : Str) : Str :=
  let oldText := extractTextFromElement (str "<div>" ++ oldHtml ++ str "</div>")
  let newText := extractTextFromElement (str "<div>" ++ newHtml ++ str "</div>")
  if oldText = [] ∨ newText = [] then newHtml
  else
    let ranges := changedRangesOf (splitRuns oldText) (splitRuns newText)
    if ranges = [] then newHtml
    else hhdWalk ranges (tokenizeHtml newHtml) 0

/-- Index of the first occurrence of `pat` in `s` (Python `s.find(pat)` /
leftmost regex match of a literal). -/
def findSub (pat : Str) : Str → Option ℕ
  | [] => if pat = [] then some 0 else none
  | c :: rest =>
    if pat.isPrefixOf (c :: rest) then some 0
    else (findSub pat rest).map (· + 1)

/-- Python `pat in s`. -/
def containsSub (pat s : Str) : Bool := (findSub pat s).isSome

/-- A found index never exceeds the string length. -/
def findSubLe (pat : Str) : ∀ (s : Str) (q : ℕ), findSub pat s = some q → q ≤ s.length
  | [], q, h => by
    unfold findSub at h
    split at h <;> simp_all
  | c :: rest, q, h => by
    unfold findSub at h
    split at h
    · simp at h
      omega
    · rcases hf : findSub pat rest with _ | q' <;> rw [hf] at h <;> simp at h
      have := findSubLe pat rest q' hf
      simp
      omega

/-- Try positions of a greedy character-class star, longest first, feeding the
remaining suffix to the continuation: the backtracking behaviour of a regex
fragment `[^X]*REST`. -/
def greedyStar {β : Type} (pred : Char → Bool) (s : Str) (cont : Str → Option β) : Option β :=
  ((List.range ((s.takeWhile pred).length + 1)).reverse.map fun k => cont (s.drop k)).foldl
    (fun acc r => match acc with
      | some v => some v
      | none => r) none

/-- Search of `re.search(r'<main[^>]*>(.*?)</main>', html, re.DOTALL)`,
returning group 1: at the leftmost `<main` start, the open tag runs to the
first `'>'`, and the lazy body ends at the first following `</main>`; if no
full match completes there, the scan resumes one character later. -/
def scanMain : Str → Option Str
  | [] => none
  | c :: rest =>
    if (str "<main").isPrefixOf (c :: rest) then
      let t := (c :: rest).drop 5
      let run := t.takeWhile (· != '>')
      if run.length < t.length then
        let afterOpen := t.drop (run.length + 1)
        match findSub (str "</main>") afterOpen with
        | some q => some (afterOpen.take q)
        | none => scanMain rest
      else scanMain rest
    else scanMain rest

/-- Match of `<div[^>]*class="[^"]*content[^"]*"[^>]*>(.*?)</div>` at one
position (the string must start with `<div`), with the greedy stars
backtracking from longest to shortest. -/
def matchDivAt (s0 : Str) : Option Str :=
  greedyStar (· != '>') (s0.drop 4) fun t1 =>
    if (str "class=\"").isPrefixOf t1 then
      greedyStar (· != '"') (t1.drop 7) fun t3 =>
        if (str "content").isPrefixOf t3 then
          greedyStar (· != '"') (t3.drop 7) fun t5 =>
            match t5 with
            | '"' :: t6 =>
              greedyStar (· != '>') t6 fun t7 =>
                match t7 with
                | '>' :: t8 =>
                  match findSub (str "</div>") t8 with
                  | some q => some (t8.take q)
                  | none => none
                | _ => none
            | _ => none
        else none
    else none

/-- Search of the content-`div` fallback pattern over the whole document. -/
def scanContentDiv : Str → Option Str
  | [] => none
  | c :: rest =>
    if (str "<div").isPrefixOf (c :: rest) then
      match matchDivAt (c :: rest) with
      | some g => some g
      | none => scanContentDiv rest
    else scanContentDiv rest

/-- `HTMLDiffer.extract_main_content`: the `<main>` body, else the body of a
`div` whose class contains `content`, else the whole document. -/
def extractMainContent (html : Str) : Str :=
  match scanMain html with
  | some g => g
  | none =>
    match scanContentDiv html with
    | some g => g
    | none => html

/-- The tag-name alternative `(?:p|h[1-6]|li|blockquote)` matched against the
characters following `'<'` (the branches are mutually exclusive, so the
alternation order does not matter). -/
def unitOpenLen (t : Str) : Option ℕ :=
  if (str "p").isPrefixOf t then some 1
  else if (str "li").isPrefixOf t then some 2
  else if (str "blockquote").isPrefixOf t then some 10
  else
    match t with
    | 'h' :: d :: _ => if '1' ≤ d ∧ d ≤ '6' then some 2 else none
    | _ => none

/-- Length of a match of `<(?:p|h[1-6]|li|blockquote)[^>]*>` at the start of
`s`, if any. -/
def openTagEnd (s : Str) : Option ℕ :=
  match s with
  | '<' :: t =>
    match unitOpenLen t with
    | none => none
    | some l =>
      let t2 := t.drop l
      let run := t2.takeWhile (· != '>')
      if run.length < t2.length then some (1 + l + run.length + 1) else none
  | _ => none

/-- Length of a match of `</(?:p|h[1-6]|li|blockquote)>` at the start of `s`
(the closing tags are literal, with no attribute part). -/
def closerLenAt (s : Str) : Option ℕ :=
  if (str "</p>").isPrefixOf s then some 4
  else if (str "</h1>").isPrefixOf s then some 5
  else if (str "</h2>").isPrefixOf s then some 5
  else if (str "</h3>").isPrefixOf s then some 5
  else if (str "</h4>").isPrefixOf s then some 5
  else if (str "</h5>").isPrefixOf s then some 5
  else if (str "</h6>").isPrefixOf s then some 5
  else if (str "</li>").isPrefixOf s then some 5
  else if (str "</blockquote>").isPrefixOf s then some 13
  else none

/-- Earliest position of a comparable-element closing tag, with its length
(the lazy `.*?` stops at the first closer). -/
def findCloser : Str → Option (ℕ × ℕ)
  | [] => none
  | c :: rest =>
    match closerLenAt (c :: rest) with
    | some l => some (0, l)
    | none => (findCloser rest).map fun r => (r.1 + 1, r.2)

/-- An open-tag match is never empty. -/
def openTagEndPos : ∀ (s : Str) (oe : ℕ), openTagEnd s = some oe → 1 ≤ oe := by
  intro s oe h
  unfold openTagEnd at h
  split at h
  · rcases hu : unitOpenLen _ with _ | l <;> rw [hu] at h
    · simp at h
    · dsimp only at h
      split at h
      · simp at h
        omega
      · simp at h
  · simp at h

/-- Scan of `re.findall(element_pattern, content, re.DOTALL)`: non-overlapping
comparable units, leftmost-first, each running from an opening
`<p|h1-6|li|blockquote ...>` to the earliest following closing tag of any
comparable element. -/
def findUnitsGo : ℕ → Str → List Str
  | 0, _ => []
  | _ + 1, [] => []
  | fuel + 1, c :: rest =>
    match openTagEnd (c :: rest) with
    | none => findUnitsGo fuel rest
    | some oe =>
      match findCloser ((c :: rest).drop oe) with
      | none => findUnitsGo fuel rest
      | some (q, l) =>
        ((c :: rest).take (oe + q + l)) :: findUnitsGo fuel ((c :: rest).drop (oe + q + l))

def findUnits (s : Str) : List Str := findUnitsGo s.length s

/-- Length of a match of `</[^>]+>` at the start of `s`, if any. -/
def closeMatchLen (s : Str) : Option ℕ :=
  match s with
  | '<' :: '/' :: t =>
    let run := t.takeWhile (· != '>')
    if run.length = 0 then none
    else if run.length < t.length then some (2 + run.length + 1) else none
  | _ => none

/-- Last position in `s` where `</[^>]+>` matches, with the match length
(the greedy `.*` of `tag_match` backtracks to the last closing tag). -/
def findLastClose : Str → Option (ℕ × ℕ)
  | [] => none
  | c :: rest =>
    match findLastClose rest with
    | some r => some (r.1 + 1, r.2)
    | none =>
      match closeMatchLen (c :: rest) with
      | some l => some (0, l)
      | none => none

/-- `re.match(r'(<[^>]+>)(.*)(</[^>]+>)', elem, re.DOTALL)` of
`highlight_changed_elements`: the opening tag up to the first `'>'`, the
greedy middle, and the last closing-tag-shaped span. -/
def tagMatch3 (elem : Str) : Option (Str × Str × Str) :=
  match elem with
  | '<' :: t =>
    let run := t.takeWhile (· != '>')
    if run.length = 0 then none
    else if run.length < t.length then
      let openLen := run.length + 2
      match findLastClose (elem.drop openLen) with
      | none => none
      | some (p, l) =>
        some (elem.take openLen, pySlice elem openLen (openLen + p),
          pySlice elem (openLen + p) (openLen + p + l))
    else none
  | _ => none

/-- Errors raised by `re` substitution-template parsing (`sre_parse`). -/
inductive PyErr
  | invalidGroupRef
  | badEscape
deriving DecidableEq, Repr

/-- Modelled from the Python stdlib: the replacement-template processing of
`re.sub` for a pattern with no capturing groups (the script only substitutes
`re.escape(...)`d literals).  `\\` and the letter escapes produce characters;
`\g<0>` and `\0` produce the whole match; any other `\digit` raises
`invalid group reference` (there are no groups); any other escape, or a
trailing backslash, raises `bad escape`.  Multi-digit octal escapes are not
modelled (no input here contains them). -/
def expandTemplateGo (whole : Str) : ℕ → Str → Except PyErr Str
  | 0, s => .ok s
  | _ + 1, [] => .ok []
  | fuel + 1, c0 :: rest =>
    if c0 = '\\' then
      match rest with
      | [] => .error .badEscape
      | c :: rest2 =>
        if c = '\\' then (fun r => '\\' :: r) <$> expandTemplateGo whole fuel rest2
        else if c = 'n' then (fun r => '\n' :: r) <$> expandTemplateGo whole fuel rest2
        else if c = 't' then (fun r => '\t' :: r) <$> expandTemplateGo whole fuel rest2
        else if c = 'r' then (fun r => '\r' :: r) <$> expandTemplateGo whole fuel rest2
        else if c = 'f' then (fun r => '\x0c' :: r) <$> expandTemplateGo whole fuel rest2
        else if c = 'v' then (fun r => '\x0b' :: r) <$> expandTemplateGo whole fuel rest2
        else if c = 'a' then (fun r => '\x07' :: r) <$> expandTemplateGo whole fuel rest2
        else if c = 'b' then (fun r => '\x08' :: r) <$> expandTemplateGo whole fuel rest2
        else if c = '0' then (fun r => '\x00' :: r) <$> expandTemplateGo whole fuel rest2
        else if c.isDigit then .error .invalidGroupRef
        else if c = 'g' then
          if (str "<0>").isPrefixOf rest2 then
            (fun r => whole ++ r) <$> expandTemplateGo whole fuel (rest2.drop 3)
          else .error .invalidGroupRef
        else .error .badEscape
    else (fun r => c0 :: r) <$> expandTemplateGo whole fuel rest

def expandTemplate (whole s : Str) : Except PyErr Str := expandTemplateGo whole s.length s

/-- Replace the first occurrence of the literal `pat` in `s` by `repl`
(`re.sub(re.escape(pat), ..., s, count=1)` after template expansion). -/
def replaceFirstSub (pat repl s : Str) : Str :=
  match findSub pat s with
  | none => s
  | some p => s.take p ++ repl ++ s.drop (p + pat.length)

/-- `re.sub(re.escape(pat), repl, s, count=1)`: the replacement template is
parsed (and may raise) before scanning, then the first occurrence of the
literal pattern is replaced by the expanded template. -/
def reSubFirst (pat repl s : Str) : Except PyErr Str := do
  let r ← expandTemplate pat repl
  pure (replaceFirstSub pat r s)

/-- The best-match loop of `highlight_changed_elements`: walk the old units in
order, skip used indices, and keep the first index whose ratio strictly
exceeds the best so far (initially `(None, 0.0)`). -/
def bestMatchGo (newText : Str) (used : List ℕ) :
    List (Str × Str) → ℕ → Option ℕ × ℚ → Option ℕ × ℚ
  | [], _, acc => acc
  | (oldText, _) :: rest, idx, acc =>
    if idx ∈ used then bestMatchGo newText used rest (idx + 1) acc
    else
      let r := SeqM.ratioQ oldText newText
      if r > acc.2 then bestMatchGo newText used rest (idx + 1) (some idx, r)
      else bestMatchGo newText used rest (idx + 1) acc

/-- The best not-yet-used old unit for a new unit's text. -/
def bestMatch (oldList : List (Str × Str)) (newText : Str) (used : List ℕ) :
    Option ℕ × ℚ :=
  bestMatchGo newText used oldList 0 (none, 0)

/-- The `(text, element)` list built from the old units, dropping units with
empty extracted text. -/
def oldElemListOf (oldContent : Str) : List (Str × Str) :=
  (findUnits oldContent).filterMap fun elem =>
    let t := extractTextFromElement elem
    if t = [] then none else some (t, elem)

/-- The loop state of `highlight_changed_elements`: used old indices, the
document being rewritten, the change count, and — as a specification-level
observation — the (new index, old index) pairs recorded at the moment an old
unit is marked used (the `MatchedPair`s of the spec). -/
abbrev HceState := List ℕ × Str × ℕ × List (ℕ × ℕ)

/-- One iteration of the `for new_elem in new_elements` loop of
`highlight_changed_elements`, for the new element at position `jdx`. -/
def hceStep (oldList : List (Str × Str)) (st : HceState) (jdx : ℕ) (newElem : Str) :
    Except PyErr HceState :=
  let newText := extractTextFromElement newElem
  if newText = [] then .ok st
  else
    match bestMatch oldList newText st.1 with
    | (some bi, br) =>
      if 1 / 2 < br ∧ br < 99 / 100 then
        let used' := bi :: st.1
        let pairs' := st.2.2.2 ++ [(jdx, bi)]
        match tagMatch3 newElem with
        | some (o, inner, c) =>
          let oldElem := ((oldList.get? bi).map Prod.snd).getD []
          let oldInner :=
            match tagMatch3 oldElem with
            | some g => g.2.1
            | none => []
          do
            let html' ← reSubFirst newElem (o ++ highlightHtmlDiff oldInner inner ++ c) st.2.1
            .ok (used', html', st.2.2.1 + 1, pairs')
        | none => .ok (used', st.2.1, st.2.2.1, pairs')
      else if br < 1 / 2 then
        match tagMatch3 newElem with
        | some (o, inner, c) => do
          let html' ← reSubFirst newElem (o ++ markElemAdded ++ inner ++ markClose ++ c) st.2.1
          .ok (st.1, html', st.2.2.1 + 1, st.2.2.2)
        | none => .ok st
      else .ok st
    | (none, _) =>
      match tagMatch3 newElem with
      | some (o, inner, c) => do
        let html' ← reSubFirst newElem (o ++ markElemAdded ++ inner ++ markClose ++ c) st.2.1
        .ok (st.1, html', st.2.2.1 + 1, st.2.2.2)
      | none => .ok st

/-- The whole element loop. -/
def hceLoop (oldList : List (Str × Str)) : List Str → ℕ → HceState → Except PyErr HceState
  | [], _, st => .ok st
  | e :: rest, jdx, st => do
    let st' ← hceStep oldList st jdx e
    hceLoop oldList rest (jdx + 1) st'

/-- `HTMLDiffer.highlight_changed_elements`, returning the annotated document,
the change count, and the recorded matched pairs.  An absent (or empty) old
document returns the new document unchanged with 0 changes. -/
def highlightChangedElements (oldHtml newHtml : Str) :
    Except PyErr (Str × ℕ × List (ℕ × ℕ)) :=
  if oldHtml = [] then .ok (newHtml, 0, [])
  else
    let oldList := oldElemListOf (extractMainContent oldHtml)
    let newElems := findUnits (extractMainContent newHtml)
    (hceLoop oldList newElems 0 ([], newHtml, 0, [])).map fun st =>
      (st.2.1, st.2.2.1, st.2.2.2)

/-- `re.sub(r'\s+', ' ', html)`: collapse every whitespace run to one space. -/
def collapseWsGo : ℕ → Str → Str
  | 0, s => s
  | _ + 1, [] => []
  | fuel + 1, c :: rest =>
    if pySpace c then ' ' :: collapseWsGo fuel ((c :: rest).dropWhile pySpace)
    else c :: collapseWsGo fuel rest

def collapseWs (s : Str) : Str := collapseWsGo s.length s

/-- `re.sub(r'<!--.*?-->', '', html, flags=re.DOTALL)`: drop comments, each
running to the earliest `-->`. -/
def removeCommentsGo : ℕ → Str → Str
  | 0, s => s
  | _ + 1, [] => []
  | fuel + 1, c :: rest =>
    if (str "<!--").isPrefixOf (c :: rest) then
      match findSub (str "-->") ((c :: rest).drop 4) with
      | some q => removeCommentsGo fuel ((c :: rest).drop (4 + q + 3))
      | none => c :: removeCommentsGo fuel rest
    else c :: removeCommentsGo fuel rest

def removeComments (s : Str) : Str := removeCommentsGo s.length s

/-- `HTMLDiffer.normalize_html`. -/
def normalizeHtml (html : Str) : Str := pyStrip (removeComments (collapseWs html))

/-- `HTMLDiffer.find_changed_sections`, reduced to what the caller consumes:
whether `diff_lines` is non-`None` and the similarity ratio.  The source
returns the unified-diff lines of the normalized contents, used by the caller
only for truthiness (the `num_changes` derived from them is passed to
`inject_combined_banner`, which ignores it); the normalized contents contain
no newline, so they are single-line sequences and the unified diff is
non-empty exactly when they differ — `diff_lines` is truthy iff
`similarity ≤ 0.95` and the normalized contents differ. -/
def findChangedSections (oldHtml newHtml : Str) : Bool × ℚ :=
  if oldHtml = [] then (false, 0)
  else
    let oldC := normalizeHtml (extractMainContent oldHtml)
    let newC := normalizeHtml (extractMainContent newHtml)
    let sim := SeqM.ratioQ oldC newC
    if sim > 19 / 20 then (false, sim)
    else (decide (oldC ≠ newC), sim)

/-- A (Boolean) prefix is never longer than the whole. -/
def prefixLenLe : ∀ (pat s : Str), pat.isPrefixOf s = true → pat.length ≤ s.length
  | [], _, _ => by simp
  | _ :: _, [], h => by simp [List.isPrefixOf] at h
  | c :: pr, d :: sr, h => by
    simp only [List.isPrefixOf, Bool.and_eq_true] at h
    have := prefixLenLe pr sr h.2
    simp only [List.length_cons]
    omega

/-- Python `int(q)`: truncation towards zero. -/
def pyIntTrunc (q : ℚ) : ℤ := if 0 ≤ q then ⌊q⌋ else ⌈q⌉

/-- The banner text of `inject_combined_banner` (its `num_changes` and
`filename` parameters are unused by the source and omitted here).  The
percentage is `int((1 - similarity) * 100)`; over `ℚ` the truncation is
exact, while the script's double arithmetic can round the product across an
integer boundary (e.g. `similarity = 2/5` prints 59 as a double, 60 here) —
the claims below never inspect this digit string. -/
def noticeOf (similarity : ℚ) : Str :=
  str "\n<div class=\"preview-combined-banner\">\n    <p style=\"margin: 0;\">\n        <strong>📝 Preview Changes:</strong> This page has been modified in this pull request (~" ++
    str (toString (pyIntTrunc ((1 - similarity) * 100))) ++
    str "% of content changed).\n        <br>\n        <strong>🎨 Highlighting Legend:</strong> \n        <mark class=\"preview-text-changed\" style=\"display: inline; padding: 1px 3px;\">Modified text (yellow)</mark> shows changed words/phrases with tooltips of original text, \n        <mark class=\"preview-text-added\" style=\"display: inline; padding: 1px 3px;\">added text (green)</mark> shows new content, and \n        <mark class=\"preview-element-added\" style=\"display: inline; padding: 1px 3px;\">new sections (blue)</mark> highlight entirely new paragraphs.\n    </p>\n</div>\n"

/-- Match of the placeholder pattern
`<div class="preview-changed-banner"[^>]*>.*?PREVIEW_BANNER_PLACEHOLDER.*?</div>`
at the start of `s`, returning the remainder after the match. -/
def matchBannerAt (s : Str) : Option Str :=
  if (str "<div class=\"preview-changed-banner\"").isPrefixOf s then
    let t := s.drop (str "<div class=\"preview-changed-banner\"").length
    let run := t.takeWhile (· != '>')
    if run.length < t.length then
      let t2 := t.drop (run.length + 1)
      match findSub (str "PREVIEW_BANNER_PLACEHOLDER") t2 with
      | some q =>
        let t3 := t2.drop (q + (str "PREVIEW_BANNER_PLACEHOLDER").length)
        match findSub (str "</div>") t3 with
        | some w => some (t3.drop (w + (str "</div>").length))
        | none => none
      | none => none
    else none
  else none

/-- A placeholder-pattern match consumes at least its leading literal. -/
def matchBannerRemLt : ∀ (s r : Str), matchBannerAt s = some r → r.length < s.length := by
  intro s r h
  unfold matchBannerAt at h
  split at h
  · rename_i hpre
    have hlen := prefixLenLe _ s hpre
    dsimp only at h
    split at h
    · split at h
      · split at h
        · simp only [Option.some.injEq] at h
          subst h
          simp only [List.length_drop] at *
          omega
        · simp at h
      · simp at h
    · simp at h
  · simp at h

/-- `re.search` of the placeholder pattern: does any position match? -/
def hasBannerMatch : Str → Bool
  | [] => false
  | c :: rest => (matchBannerAt (c :: rest)).isSome || hasBannerMatch rest

/-- `re.sub` of the placeholder pattern by the banner, all occurrences,
left to right (the banner text contains no backslash, so its template
expansion is itself). -/
def bannerSubGo (notice : Str) : ℕ → Str → Str
  | 0, s => s
  | _ + 1, [] => []
  | fuel + 1, c :: rest =>
    match matchBannerAt (c :: rest) with
    | some r => notice ++ bannerSubGo notice fuel r
    | none => c :: bannerSubGo notice fuel rest

def bannerSubAll (notice s : Str) : Str := bannerSubGo notice s.length s

/-- `re.search(r'(<main[^>]*>)', html)`: the index just after the end of the
leftmost `<main ...>` tag. -/
def mainInsertAt : Str → Option ℕ
  | [] => none
  | c :: rest =>
    if (str "<main").isPrefixOf (c :: rest) then
      let t := (c :: rest).drop 5
      let run := t.takeWhile (· != '>')
      if run.length < t.length then some (5 + run.length + 1)
      else (mainInsertAt rest).map (· + 1)
    else (mainInsertAt rest).map (· + 1)

/-- `HTMLDiffer.inject_combined_banner`: replace the placeholder `div` if the
pattern matches anywhere, else insert the banner right after `<main ...>`,
else leave the document unchanged. -/
def injectCombinedBanner (html : Str) (similarity : ℚ) : Str :=
  if hasBannerMatch html then bannerSubAll (noticeOf similarity) html
  else
    match mainInsertAt html with
    | some ip => html.take ip ++ noticeOf similarity ++ html.drop ip
    | none => html

/-- The no-old-document tail of `HTMLDiffer.process_file`: with a placeholder
present the banner is injected with similarity 0; otherwise nothing is done. -/
def processFileNoOld (newHtml : Str) : Str :=
  if containsSub (str "PREVIEW_BANNER_PLACEHOLDER") newHtml then
    injectCombinedBanner newHtml 0
  else newHtml

/-- The pure data flow of `HTMLDiffer.process_file` (file reads/writes and
logging stripped): returns the final contents of the processed file. -/
def processFile (newHtml : Str) (oldHtml : Option Str) : Except PyErr Str :=
  match oldHtml with
  | none => .ok (processFileNoOld newHtml)
  | some old =>
    if old = [] then .ok (processFileNoOld newHtml)
    else do
      let ds := findChangedSections old newHtml
      let hc ← highlightChangedElements old newHtml
      let new1 := if 0 < hc.2.1 then hc.1 else newHtml
      let hasPl := containsSub (str "PREVIEW_BANNER_PLACEHOLDER") newHtml
      let new2 := if ds.1 || hasPl then injectCombinedBanner new1 ds.2 else new1
      pure (if ds.1 || hasPl || decide (0 < hc.2.1) then new2 else newHtml)

/-- A first-`some` fold that produced a value must have seen it. -/
def foldFirstSomeMem {β : Type} :
    ∀ (l : List (Option β)) (v : β),
      l.foldl (fun acc r => match acc with | some w => some w | none => r) none = some v →
      some v ∈ l
  | [], v, h => by simp at h
  | o :: rest, v, h => by
    rw [List.foldl_cons] at h
    cases o with
    | none => exact List.mem_cons_of_mem _ (foldFirstSomeMem rest v h)
    | some w =>
      have hsw : ∀ (l' : List (Option β)),
          l'.foldl (fun acc r => match acc with | some w' => some w' | none => r) (some w) =
            some w := by
        intro l'
        induction l' with
        | nil => rfl
        | cons x xs ih => rw [List.foldl_cons]; exact ih
      rw [hsw] at h
      rw [h]
      exact List.mem_cons_self _ _

/-- A successful greedy star came from the continuation on some suffix. -/
def greedyStarSome {β : Type} (pred : Char → Bool) (s : Str) (cont : Str → Option β) (v : β)
    (h : greedyStar pred s cont = some v) : ∃ k, cont (s.drop k) = some v := by
  unfold greedyStar at h
  have hm := foldFirstSomeMem _ v h
  rw [List.mem_map] at hm
  obtain ⟨k, _, hckv⟩ := hm
  exact ⟨k, hckv⟩

/-- Match of the TOC-link pattern
`(<a[^>]*href="[^"]*FILE[^"]*"[^>]*class="[^"]*")([^"]*"[^>]*>)`
at the start of `s`: returns `(group1, group2, rest)` with
`s = group1 ++ group2 ++ rest`.  Group 1 ends just after the closing quote of
the `class` attribute; group 2 must contain one further `'"'` before the tag's
`'>'`.  The greedy stars backtrack longest-first. -/
def matchTocAt (file : Str) (s : Str) : Option (Str × Str × Str) :=
  if (str "<a").isPrefixOf s then
    greedyStar (· != '>') (s.drop 2) fun t1 =>
      if (str "href=\"").isPrefixOf t1 then
        greedyStar (· != '"') (t1.drop 6) fun t2 =>
          if file.isPrefixOf t2 then
            greedyStar (· != '"') (t2.drop file.length) fun t3 =>
              match t3 with
              | '"' :: t4 =>
                greedyStar (· != '>') t4 fun t5 =>
                  if (str "class=\"").isPrefixOf t5 then
                    greedyStar (· != '"') (t5.drop 7) fun t6 =>
                      match t6 with
                      | '"' :: t6' =>
                        greedyStar (· != '"') t6' fun t7 =>
                          match t7 with
                          | '"' :: t8 =>
                            greedyStar (· != '>') t8 fun t9 =>
                              match t9 with
                              | '>' :: t10 =>
                                some (s.take (s.length - t6'.length),
                                  t6'.take (t6'.length - t10.length), t10)
                              | _ => none
                          | _ => none
                      | _ => none
                  else none
              | _ => none
          else none
      else none
  else none

/-- A TOC-pattern match consumes at least the leading `<a`. -/
def matchTocAtRem :
    ∀ (file s : Str) (g : Str × Str × Str), matchTocAt file s = some g →
      g.2.2.length < s.length := by
  intro file s g h
  unfold matchTocAt at h
  split at h
  · rename_i hpre
    have hs2 : 2 ≤ s.length := prefixLenLe _ s hpre
    obtain ⟨k1, h1⟩ := greedyStarSome _ _ _ _ h
    try dsimp only at h1
    split at h1
    · obtain ⟨k2, h2⟩ := greedyStarSome _ _ _ _ h1
      try dsimp only at h2
      split at h2
      · obtain ⟨k3, h3⟩ := greedyStarSome _ _ _ _ h2
        try dsimp only at h3
        split at h3
        · rename_i t4 heq4
          have l4 : t4.length + 3 ≤ s.length := by
            have := congrArg List.length heq4
            simp only [List.length_drop, List.length_cons] at this
            omega
          obtain ⟨k5, h5⟩ := greedyStarSome _ _ _ _ h3
          try dsimp only at h5
          split at h5
          · obtain ⟨k6, h6⟩ := greedyStarSome _ _ _ _ h5
            try dsimp only at h6
            split at h6
            · rename_i t6' heq6
              have l6 : t6'.length + 1 ≤ t4.length := by
                have := congrArg List.length heq6
                simp only [List.length_drop, List.length_cons] at this
                omega
              obtain ⟨k7, h7⟩ := greedyStarSome _ _ _ _ h6
              try dsimp only at h7
              split at h7
              · rename_i t8 heq8
                have l8 : t8.length + 1 ≤ t6'.length := by
                  have := congrArg List.length heq8
                  simp only [List.length_drop, List.length_cons] at this
                  omega
                obtain ⟨k9, h9⟩ := greedyStarSome _ _ _ _ h7
                try dsimp only at h9
                split at h9
                · rename_i t10 heq10
                  have l10 : t10.length + 1 ≤ t8.length := by
                    have := congrArg List.length heq10
                    simp only [List.length_drop, List.length_cons] at this
                    omega
                  simp only [Option.some.injEq] at h9
                  subst h9
                  simp only [List.length_take]
                  omega
                · simp at h9
              · simp at h7
            · simp at h6
          · simp at h5
        · simp at h3
      · simp at h2
    · simp at h1
  · simp at h

/-- `re.sub` of the TOC pattern for one file: all non-overlapping matches,
left to right, each replaced by `group1 + ' preview-toc-changed' + group2`
(the function replacement `add_toc_highlight_class`). -/
def tocSubGo (file : Str) : ℕ → Str → Str
  | 0, s => s
  | _ + 1, [] => []
  | fuel + 1, c :: rest =>
    match matchTocAt file (c :: rest) with
    | some g => g.1 ++ str " preview-toc-changed" ++ g.2.1 ++ tocSubGo file fuel g.2.2
    | none => c :: tocSubGo file fuel rest

def tocSubAll (file s : Str) : Str := tocSubGo file s.length s

/-- `HTMLDiffer.highlight_toc_entries`: one substitution pass per changed
file.  (The source iterates over a Python `set`; the iteration order is
modelled as the given list order, which none of the claims depend on.) -/
def highlightTocEntries (html : Str) (changedFiles : List Str) : Str :=
  if changedFiles = [] then html
  else changedFiles.foldl (fun h file => tocSubAll file h) html

/-- The three opening markers and the closing marker the annotator can
insert. -/
def markLits : List Str := [markChanged, markAdded, markElemAdded, markClose]

/-- If one of the four marker literals starts `s`, the remainder after it. -/
def matchLitAt (s : Str) : Option Str :=
  if markChanged.isPrefixOf s then some (s.drop markChanged.length)
  else if markAdded.isPrefixOf s then some (s.drop markAdded.length)
  else if markElemAdded.isPrefixOf s then some (s.drop markElemAdded.length)
  else if markClose.isPrefixOf s then some (s.drop markClose.length)
  else none

/-- A marker match consumes at least one character. -/
def matchLitAtLt : ∀ (s r : Str), matchLitAt s = some r → r.length < s.length := by
  intro s r h
  unfold matchLitAt at h
  split at h
  · rename_i hp
    have := prefixLenLe _ s hp
    simp only [Option.some.injEq] at h
    subst h
    simp only [List.length_drop]
    have hl : 0 < markChanged.length := by decide
    omega
  · split at h
    · rename_i hp
      have := prefixLenLe _ s hp
      simp only [Option.some.injEq] at h
      subst h
      simp only [List.length_drop]
      have hl : 0 < markAdded.length := by decide
      omega
    · split at h
      · rename_i hp
        have := prefixLenLe _ s hp
        simp only [Option.some.injEq] at h
        subst h
        simp only [List.length_drop]
        have hl : 0 < markElemAdded.length := by decide
        omega
      · split at h
        · rename_i hp
          have := prefixLenLe _ s hp
          simp only [Option.some.injEq] at h
          subst h
          simp only [List.length_drop]
          have hl : 0 < markClose.length := by decide
          omega
        · simp at h

/-- Removing every highlight marker: one left-to-right pass dropping each
occurrence of the four marker literals (the reading of "stripping all
highlight markers" used by the removal property). -/
def stripMarksGo : ℕ → Str → Str
  | 0, s => s
  | _ + 1, [] => []
  | fuel + 1, c :: rest =>
    match matchLitAt (c :: rest) with
    | some r => stripMarksGo fuel r
    | none => c :: stripMarksGo fuel rest

def stripMarks (s : Str) : Str := stripMarksGo s.length s

end PSW

namespace PSW

/-- Full specification of the best-match fold of `highlight_changed_elements`:
the result improves on the accumulator, bounds the ratio of every unused
candidate of the remainder, and — whenever it differs from the accumulator —
points at a candidate attaining the final ratio such that every unused
candidate strictly before it has a strictly smaller ratio (the `>` update). -/
def bestMatchGoSpec (newText : Str) (used : List ℕ) :
    ∀ (rest : List (Str × Str)) (idx : ℕ) (acc : Option ℕ × ℚ),
      (∀ k p, rest.get? k = some p → (idx + k) ∉ used →
        SeqM.ratioQ p.1 newText ≤ (bestMatchGo newText used rest idx acc).2) ∧
      acc.2 ≤ (bestMatchGo newText used rest idx acc).2 ∧
      (bestMatchGo newText used rest idx acc = acc ∨
        ∃ k p, rest.get? k = some p ∧
          (bestMatchGo newText used rest idx acc).1 = some (idx + k) ∧
          (idx + k) ∉ used ∧
          SeqM.ratioQ p.1 newText = (bestMatchGo newText used rest idx acc).2 ∧
          acc.2 < (bestMatchGo newText used rest idx acc).2 ∧
          ∀ m q, m < k → rest.get? m = some q → (idx + m) ∉ used →
            SeqM.ratioQ q.1 newText < (bestMatchGo newText used rest idx acc).2)
  | [], idx, acc => by
    refine ⟨?_, le_refl _, Or.inl rfl⟩
    intro k p hg
    simp at hg
  | (oldText, e) :: rest, idx, acc => by
    by_cases hu : idx ∈ used
    · have ih := bestMatchGoSpec newText used rest (idx + 1) acc
      simp only [bestMatchGo, if_pos hu]
      obtain ⟨iha, ihb, ihc⟩ := ih
      refine ⟨?_, ihb, ?_⟩
      · intro k p hg hk
        match k, hg with
        | 0, hg =>
          exact absurd (by simpa using hk) (by simp [hu])
        | k' + 1, hg =>
          have : idx + (k' + 1) = (idx + 1) + k' := by omega
          rw [this] at hk
          exact iha k' p (by simpa using hg) hk
      · rcases ihc with heq | ⟨k, p, hg, h1, h2, h3, h4, h5⟩
        · exact Or.inl heq
        · refine Or.inr ⟨k + 1, p, by simpa using hg, ?_, ?_, h3, h4, ?_⟩
          · rw [h1]; congr 1; omega
          · have : idx + (k + 1) = (idx + 1) + k := by omega
            rw [this]; exact h2
          · intro m q hm hgm hmu
            match m, hgm with
            | 0, hgm => exact absurd (by simpa using hmu) (by simp [hu])
            | m' + 1, hgm =>
              have : idx + (m' + 1) = (idx + 1) + m' := by omega
              rw [this] at hmu
              exact h5 m' q (by omega) (by simpa using hgm) hmu
    · by_cases hr : SeqM.ratioQ oldText newText > acc.2
      · have ih := bestMatchGoSpec newText used rest (idx + 1)
          (some idx, SeqM.ratioQ oldText newText)
        simp only [bestMatchGo, if_neg hu, if_pos hr]
        obtain ⟨iha, ihb, ihc⟩ := ih
        refine ⟨?_, le_of_lt (lt_of_lt_of_le hr ihb), ?_⟩
        · intro k p hg hk
          match k, hg with
          | 0, hg =>
            have hp : p = (oldText, e) := by simpa using hg.symm
            subst hp
            exact ihb
          | k' + 1, hg =>
            have : idx + (k' + 1) = (idx + 1) + k' := by omega
            rw [this] at hk
            exact iha k' p (by simpa using hg) hk
        · rcases ihc with heq | ⟨k, p, hg, h1, h2, h3, h4, h5⟩
          · refine Or.inr ⟨0, (oldText, e), by simp, ?_, by simpa using hu, ?_, ?_, ?_⟩
            · rw [heq]; simp
            · rw [heq]
            · rw [heq]; exact hr
            · intro m q hm
              omega
          · refine Or.inr ⟨k + 1, p, by simpa using hg, ?_, ?_, h3, lt_trans hr h4, ?_⟩
            · rw [h1]; congr 1; omega
            · have : idx + (k + 1) = (idx + 1) + k := by omega
              rw [this]; exact h2
            · intro m q hm hgm hmu
              match m, hgm with
              | 0, hgm =>
                have hq : q = (oldText, e) := by simpa using hgm.symm
                subst hq
                exact h4
              | m' + 1, hgm =>
                have : idx + (m' + 1) = (idx + 1) + m' := by omega
                rw [this] at hmu
                exact h5 m' q (by omega) (by simpa using hgm) hmu
      · have ih := bestMatchGoSpec newText used rest (idx + 1) acc
        simp only [bestMatchGo, if_neg hu, if_neg hr]
        obtain ⟨iha, ihb, ihc⟩ := ih
        refine ⟨?_, ihb, ?_⟩
        · intro k p hg hk
          match k, hg with
          | 0, hg =>
            have hp : p = (oldText, e) := by simpa using hg.symm
            subst hp
            exact le_trans (not_lt.mp hr) ihb
          | k' + 1, hg =>
            have : idx + (k' + 1) = (idx + 1) + k' := by omega
            rw [this] at hk
            exact iha k' p (by simpa using hg) hk
        · rcases ihc with heq | ⟨k, p, hg, h1, h2, h3, h4, h5⟩
          · exact Or.inl heq
          · refine Or.inr ⟨k + 1, p, by simpa using hg, ?_, ?_, h3, h4, ?_⟩
            · rw [h1]; congr 1; omega
            · have : idx + (k + 1) = (idx + 1) + k := by omega
              rw [this]; exact h2
            · intro m q hm hgm hmu
              match m, hgm with
              | 0, hgm =>
                have hq : q = (oldText, e) := by simpa using hgm.symm
                subst hq
                exact lt_of_le_of_lt (not_lt.mp hr) h4
              | m' + 1, hgm =>
                have : idx + (m' + 1) = (idx + 1) + m' := by omega
                rw [this] at hmu
                exact h5 m' q (by omega) (by simpa using hgm) hmu

namespace SeqM

variable {α : Type} [DecidableEq α]

/-- Row `t`'s diagonal cell is visited: `t` is one of its own columns (its
value is indexed by `b2j` and `t` lies inside the window). -/
def diagAlive (a : List α) (blo bhi t : ℕ) : Prop :=
  t ∈ rowColsAt (b2j a) blo bhi a t

instance (a : List α) (blo bhi t : ℕ) : Decidable (diagAlive a blo bhi t) :=
  inferInstanceAs (Decidable (_ ∈ _))

/-- Length of the diagonal run of alive cells ending at `t` (runs never reach
below the window floor `blo`). -/
def drw (a : List α) (blo bhi : ℕ) : ℕ → ℕ
  | 0 => if diagAlive a blo bhi 0 then 1 else 0
  | t + 1 =>
    if diagAlive a blo bhi (t + 1) then
      (if t + 1 = blo then 1 else drw a blo bhi t + 1)
    else 0

/-- Membership in `positions`. -/
def mem_positions {a : List α} {x : α} {j : ℕ} :
    j ∈ positions a x ↔ j < a.length ∧ a.get? j = some x := by
  unfold positions
  rw [List.mem_filter, List.mem_range]
  simp

/-- A `b2j` entry is either empty or the full positions list. -/
def b2j_sub {a : List α} {x : α} {j : ℕ} (h : j ∈ b2j a x) :
    j ∈ positions a x ∧ b2j a x = positions a x := by
  unfold b2j at h ⊢
  split at h
  · simp at h
  · rename_i hc
    rw [if_neg hc]
    exact ⟨h, rfl⟩

/-- A visited column is alive on its own row (`a = b`: the value at `j` is the
row's value, so `j` indexes itself). -/
def colsAliveCol {a : List α} {blo bhi i j : ℕ}
    (h : j ∈ rowColsAt (b2j a) blo bhi a i) : diagAlive a blo bhi j := by
  unfold rowColsAt at h
  rcases hget : a.get? i with _ | x <;> rw [hget] at h
  · simp at h
  · unfold rowCols at h
    rw [List.mem_filter] at h
    obtain ⟨hmem, hwin⟩ := h
    obtain ⟨hpos, hfull⟩ := b2j_sub hmem
    have hj := mem_positions.mp hpos
    unfold diagAlive rowColsAt
    rw [hj.2]
    unfold rowCols
    rw [List.mem_filter, hfull]
    exact ⟨hpos, hwin⟩

/-- A row that visits any column is alive itself (provided it lies in the
window). -/
def colsAliveRow {a : List α} {blo bhi i j : ℕ}
    (h : j ∈ rowColsAt (b2j a) blo bhi a i) (h1 : blo ≤ i) (h2 : i < bhi) :
    diagAlive a blo bhi i := by
  unfold rowColsAt at h
  rcases hget : a.get? i with _ | x <;> rw [hget] at h
  · simp at h
  · unfold rowCols at h
    rw [List.mem_filter] at h
    obtain ⟨hmem, _⟩ := h
    obtain ⟨_, hfull⟩ := b2j_sub hmem
    have hilen : i < a.length := by
      rcases Nat.lt_or_ge i a.length with hlt | hge
      · exact hlt
      · rw [List.get?_eq_none.mpr hge] at hget
        cases hget
    unfold diagAlive rowColsAt
    rw [hget]
    unfold rowCols
    rw [List.mem_filter, hfull]
    refine ⟨mem_positions.mpr ⟨hilen, hget⟩, by simp; omega⟩

/-- An alive diagonal cell lies in the window. -/
def diagAliveWin {a : List α} {blo bhi t : ℕ} (h : diagAlive a blo bhi t) :
    blo ≤ t ∧ t < bhi :=
  rowColsAtMem (b2j a) blo bhi a t t h

/-- Visited columns are strictly ascending. -/
def colsSorted (a : List α) (blo bhi i : ℕ) :
    (rowColsAt (b2j a) blo bhi a i).Pairwise (· < ·) := by
  unfold rowColsAt
  rcases a.get? i with _ | x
  · exact List.Pairwise.nil
  · dsimp only
    unfold rowCols b2j
    by_cases hc : a.length ≥ 200 ∧ List.count x a > a.length / 100
    · rw [if_pos hc]
      simp
    · rw [if_neg hc]
      unfold positions
      exact ((List.pairwise_lt_range _).filter _).filter _

/-- `colStep` never decreases the best size. -/
def colStepMono (f : ℕ → ℕ) (i : ℕ) (st : ℕ × ℕ × ℕ) (j : ℕ) :
    st.2.2 ≤ (colStep f i st j).2.2 := by
  unfold colStep
  dsimp only
  by_cases hgt : (if j = 0 then 0 else f (j - 1)) + 1 > st.2.2
  · rw [if_pos hgt]
    dsimp only
    omega
  · rw [if_neg hgt]

/-- The column fold never decreases the best size. -/
def colsFoldMono (f : ℕ → ℕ) (i : ℕ) :
    ∀ (cols : List ℕ) (st : ℕ × ℕ × ℕ),
      st.2.2 ≤ (cols.foldl (colStep f i) st).2.2
  | [], _ => le_refl _
  | j :: rest, st => le_trans (colStepMono f i st j) (colsFoldMono f i rest _)

/-- Core of the diagonality argument (`a = b`): folding one row's columns
keeps the best match diagonal and drives the best size to at least the
diagonal-run value `D`.  Cells left of the diagonal are bounded by the
already-achieved best, cells right of it by `D`, and the diagonal cell
attains exactly `D`. -/
def colsFoldDiag (f : ℕ → ℕ) (i D : ℕ) :
    ∀ (cols : List ℕ) (best : ℕ × ℕ × ℕ),
      cols.Pairwise (· < ·) →
      (∀ j ∈ cols, j < i → (if j = 0 then 0 else f (j - 1)) + 1 ≤ best.2.2) →
      (∀ j ∈ cols, i < j → (if j = 0 then 0 else f (j - 1)) + 1 ≤ D) →
      (i ∈ cols → (if i = 0 then 0 else f (i - 1)) + 1 = D) →
      best.1 = best.2.1 →
      (i ∈ cols ∨ D ≤ best.2.2) →
      (cols.foldl (colStep f i) best).1 = (cols.foldl (colStep f i) best).2.1 ∧
        D ≤ (cols.foldl (colStep f i) best).2.2
  | [], best, _, _, _, _, hdiag, hd => by
    rcases hd with hd | hd
    · simp at hd
    · exact ⟨hdiag, hd⟩
  | j :: rest, best, hpw, h1, h2, h3, hdiag, hd => by
    rw [List.foldl_cons]
    rcases Nat.lt_trichotomy j i with hji | hji | hji
    · have hk : (if j = 0 then 0 else f (j - 1)) + 1 ≤ best.2.2 :=
        h1 j (List.mem_cons_self _ _) hji
      have hstep : colStep f i best j = best := by
        unfold colStep
        dsimp only
        rw [if_neg (by omega)]
      rw [hstep]
      refine colsFoldDiag f i D rest best (List.pairwise_cons.mp hpw).2
        (fun j' hj' => h1 j' (List.mem_cons_of_mem _ hj'))
        (fun j' hj' => h2 j' (List.mem_cons_of_mem _ hj'))
        (fun hi => h3 (List.mem_cons_of_mem _ hi)) hdiag ?_
      rcases hd with hd | hd
      · rcases List.mem_cons.mp hd with he | he
        · omega
        · exact Or.inl he
      · exact Or.inr hd
    · subst hji
      have hkD : (if j = 0 then 0 else f (j - 1)) + 1 = D :=
        h3 (List.mem_cons_self _ _)
      by_cases hgt : (if j = 0 then 0 else f (j - 1)) + 1 > best.2.2
      · have hstep : colStep f j best j =
            (j + 1 - D, j + 1 - D, D) := by
          unfold colStep
          dsimp only
          rw [if_pos hgt, hkD]
        rw [hstep]
        refine colsFoldDiag f j D rest (j + 1 - D, j + 1 - D, D)
          (List.pairwise_cons.mp hpw).2 ?_
          (fun j' hj' => h2 j' (List.mem_cons_of_mem _ hj'))
          (fun hi => h3 (List.mem_cons_of_mem _ hi)) rfl (Or.inr (le_refl D))
        intro j' hj' hj'i
        have := h1 j' (List.mem_cons_of_mem _ hj') hj'i
        dsimp only
        omega
      · have hstep : colStep f j best j = best := by
          unfold colStep
          dsimp only
          rw [if_neg hgt]
        rw [hstep]
        refine colsFoldDiag f j D rest best (List.pairwise_cons.mp hpw).2
          (fun j' hj' => h1 j' (List.mem_cons_of_mem _ hj'))
          (fun j' hj' => h2 j' (List.mem_cons_of_mem _ hj'))
          (fun hi => h3 (List.mem_cons_of_mem _ hi)) hdiag (Or.inr (by omega))
    · have hD : D ≤ best.2.2 := by
        rcases hd with hd | hd
        · rcases List.mem_cons.mp hd with he | he
          · omega
          · have := (List.pairwise_cons.mp hpw).1 i he
            omega
        · exact hd
      have hk : (if j = 0 then 0 else f (j - 1)) + 1 ≤ D :=
        h2 j (List.mem_cons_self _ _) hji
      have hstep : colStep f i best j = best := by
        unfold colStep
        dsimp only
        rw [if_neg (by omega)]
      rw [hstep]
      refine colsFoldDiag f i D rest best (List.pairwise_cons.mp hpw).2
        (fun j' hj' => h1 j' (List.mem_cons_of_mem _ hj'))
        (fun j' hj' => h2 j' (List.mem_cons_of_mem _ hj'))
        (fun hi => h3 (List.mem_cons_of_mem _ hi)) hdiag (Or.inr hD)

/-- One-step unfolding of the diagonal-run length, uniform in `t`. -/
def drwEq (a : List α) (blo bhi : ℕ) :
    ∀ t, drw a blo bhi t =
      if diagAlive a blo bhi t then (if t = blo then 1 else drw a blo bhi (t - 1) + 1)
      else 0
  | 0 => by
    rw [drw]
    by_cases hA : diagAlive a blo bhi 0
    · rw [if_pos hA, if_pos hA, if_pos]
      have := (diagAliveWin hA).1
      omega
    · rw [if_neg hA, if_neg hA]
  | t + 1 => by
    rw [drw]
    rfl

/-- Row induction for `a = b` over a symmetric window: with the carried
`j2len` bounded by the diagonal runs and the best match diagonal, the DP row
fold keeps the best match on the diagonal. -/
def flmRowsDiag (a : List α) (blo bhi : ℕ) :
    ∀ (n r : ℕ) (best : ℕ × ℕ × ℕ) (f : ℕ → ℕ),
      blo ≤ r → r + n = bhi →
      (∀ j, 0 < f j → blo ≤ j) →
      (∀ j, f j ≤ drw a blo bhi j) →
      (∀ j, f j ≤ (if r = blo then 0 else drw a blo bhi (r - 1))) →
      f (r - 1) = (if r = blo then 0 else drw a blo bhi (r - 1)) →
      best.1 = best.2.1 →
      (∀ t, blo ≤ t → t < r → drw a blo bhi t ≤ best.2.2) →
      (flmRows (b2j a) blo bhi a (List.range' r n) best f).1 =
        (flmRows (b2j a) blo bhi a (List.range' r n) best f).2.1
  | 0, r, best, f, _, _, _, _, _, _, jb1, _ => by
    rw [show List.range' r 0 = [] from rfl, flmRows]
    exact jb1
  | n + 1, r, best, f, hr, hrange, jf0, jf1, jf2, jf3, jb1, jb2 => by
    rw [show List.range' r (n + 1) = r :: List.range' (r + 1) n from rfl, flmRows]
    have hrbhi : r < bhi := by omega
    by_cases hA : diagAlive a blo bhi r
    · have hD1 : 1 ≤ drw a blo bhi r := by
        rw [drwEq a blo bhi r, if_pos hA]
        split <;> omega
      have hDeq : drw a blo bhi r =
          (if r = blo then 0 else drw a blo bhi (r - 1)) + 1 := by
        rw [drwEq a blo bhi r, if_pos hA]
        split <;> omega
      have hkle : ∀ j, (if j = 0 then 0 else f (j - 1)) + 1 ≤ drw a blo bhi r := by
        intro j
        rw [hDeq]
        have := jf2 (j - 1)
        split <;> omega
      have hkdrw : ∀ j, j ∈ rowColsAt (b2j a) blo bhi a r →
          (if j = 0 then 0 else f (j - 1)) + 1 ≤ drw a blo bhi j := by
        intro j hj
        have hAj := colsAliveCol hj
        have hwin := (rowColsAtMem (b2j a) blo bhi a r) j hj
        rw [drwEq a blo bhi j, if_pos hAj]
        by_cases hjb : j = blo
        · rw [if_pos hjb]
          rcases Nat.eq_zero_or_pos j with hj0 | hjpos
          · rw [if_pos hj0]
          · rw [if_neg (by omega)]
            have hf0 : f (j - 1) = 0 := by
              by_contra hne
              have := jf0 (j - 1) (by omega)
              omega
            omega
        · rw [if_neg hjb]
          have hjpos : 0 < j := by omega
          rw [if_neg (by omega)]
          have := jf1 (j - 1)
          omega
      have hfold := colsFoldDiag f r (drw a blo bhi r)
        (rowColsAt (b2j a) blo bhi a r) best
        (colsSorted a blo bhi r)
        (by
          intro j hj hlt
          exact le_trans (hkdrw j hj)
            (jb2 j ((rowColsAtMem (b2j a) blo bhi a r) j hj).1 hlt))
        (fun j _ _ => hkle j)
        (by
          intro _
          rw [hDeq]
          rcases Nat.eq_zero_or_pos r with hr0 | hrpos
          · have hb0 : r = blo := by omega
            rw [if_pos hr0, if_pos hb0]
          · rw [if_neg (by omega)]
            have := jf3
            omega)
        jb1 (Or.inl hA)
      refine flmRowsDiag a blo bhi n (r + 1) _ _ (by omega) (by omega) ?_ ?_ ?_ ?_
        hfold.1 ?_
      · intro j hj
        unfold nextRowF at hj
        split at hj
        · rename_i hjc
          exact ((rowColsAtMem (b2j a) blo bhi a r) j hjc).1
        · omega
      · intro j
        unfold nextRowF
        split
        · rename_i hjc
          exact hkdrw j hjc
        · omega
      · intro j
        rw [if_neg (by omega)]
        have : r + 1 - 1 = r := by omega
        rw [this]
        unfold nextRowF
        split
        · rename_i hjc
          exact hkle j
        · omega
      · rw [if_neg (by omega)]
        have he : r + 1 - 1 = r := by omega
        rw [he]
        unfold nextRowF
        have hA' : r ∈ rowColsAt (b2j a) blo bhi a r := hA
        rw [if_pos hA']
        rw [hDeq]
        rcases Nat.eq_zero_or_pos r with hr0 | hrpos
        · have hb0 : r = blo := by omega
          rw [if_pos hr0, if_pos hb0]
        · rw [if_neg (by omega)]
          have := jf3
          omega
      · intro t ht1 ht2
        rcases Nat.lt_or_ge t r with hlt | hge
        · exact le_trans (jb2 t ht1 hlt) (colsFoldMono f r _ best)
        · have : t = r := by omega
          subst this
          exact hfold.2
    · have hcols : rowColsAt (b2j a) blo bhi a r = [] := by
        by_contra hne
        obtain ⟨j, hj⟩ := List.exists_mem_of_ne_nil _ hne
        exact hA (colsAliveRow hj hr hrbhi)
      have hdrw0 : drw a blo bhi r = 0 := by
        rw [drwEq a blo bhi r, if_neg hA]
      rw [hcols]
      refine flmRowsDiag a blo bhi n (r + 1) _ _ (by omega) (by omega) ?_ ?_ ?_ ?_
        jb1 ?_
      · intro j hj
        unfold nextRowF at hj
        simp at hj
      · intro j
        unfold nextRowF
        simp
      · intro j
        unfold nextRowF
        simp
      · have he : r + 1 - 1 = r := by omega
        rw [if_neg (by omega), he, hdrw0]
        unfold nextRowF
        simp
      · intro t ht1 ht2
        simp only [List.foldl_nil]
        rcases Nat.lt_or_ge t r with hlt | hge
        · exact jb2 t ht1 hlt
        · have : t = r := by omega
          subst this
          rw [hdrw0]
          omega

/-- The DP loop of `find_longest_match` on `a` against itself returns a
diagonal best match. -/
def flmLoopDiag (a : List α) (alo ahi : ℕ) (h : alo ≤ ahi) :
    (flmLoop a (b2j a) alo ahi alo ahi).1 = (flmLoop a (b2j a) alo ahi alo ahi).2.1 := by
  unfold flmLoop
  refine flmRowsDiag a alo ahi (ahi - alo) alo (alo, alo, 0) (fun _ => 0)
    (le_refl alo) (by omega) (fun j hj => by simp at hj) (fun j => Nat.zero_le _)
    (fun j => by simp) (by simp) rfl
    (fun t ht1 ht2 => absurd ht2 (by omega))

/-- Backward extension along the diagonal runs to the window floor. -/
def extendBackDiag (a : List α) (alo : ℕ) :
    ∀ (i k : ℕ), alo ≤ i → i ≤ a.length →
      extendBack a a alo alo i i k = (alo, alo, k + (i - alo))
  | 0, k, hi, _ => by
    rw [extendBack]
    have h0 : alo = 0 := by omega
    subst h0
    simp
  | i + 1, k, hi, hl => by
    rw [extendBack]
    by_cases hc : alo < i + 1
    · rw [if_pos ⟨hc, hc, by simp, by
        rw [List.get?_eq_get (show i < a.length by omega)]; rfl⟩]
      have hrec := extendBackDiag a alo i (k + 1) (by omega) (by omega)
      rw [show i + 1 - 1 = i from rfl, hrec]
      simp only [Prod.mk.injEq]
      exact ⟨trivial, trivial, by omega⟩
    · rw [if_neg (fun hcon => hc hcon.1)]
      have h0 : alo = i + 1 := by omega
      subst h0
      simp

/-- Forward extension along the diagonal runs to the window ceiling. -/
def extendFwdGoDiag (a : List α) (ahi : ℕ) (hlen : ahi ≤ a.length) (s : ℕ) :
    ∀ (fuel k : ℕ), fuel = ahi - (s + k) →
      extendFwdGo a a ahi ahi s s fuel k = k + fuel
  | 0, k, _ => by
    rw [extendFwdGo]
    omega
  | fuel + 1, k, hf => by
    rw [extendFwdGo]
    have hsk : s + k < ahi := by omega
    rw [if_pos ⟨hsk, hsk, rfl, by
      rw [List.get?_eq_get (show s + k < a.length by omega)]; rfl⟩]
    rw [extendFwdGoDiag a ahi hlen s fuel (k + 1) (by omega)]
    omega

/-- `find_longest_match` of `a` against itself returns the full window: the
DP best is diagonal and the two extension loops stretch it to the edges. -/
def flmSelfFull (a : List α) (alo ahi : ℕ) (h1 : alo ≤ ahi) (h2 : ahi ≤ a.length) :
    findLongestMatch a a alo ahi alo ahi = (alo, alo, ahi - alo) := by
  have hdiag := flmLoopDiag a alo ahi h1
  obtain ⟨g1, g2, g3, g4⟩ := flmLoopInv a a alo ahi alo ahi h1 h1
  have hAB : flmAfterBack a a alo ahi alo ahi =
      (alo, alo, (flmLoop a (b2j a) alo ahi alo ahi).2.2 +
        ((flmLoop a (b2j a) alo ahi alo ahi).1 - alo)) := by
    unfold flmAfterBack
    rw [← hdiag]
    exact extendBackDiag a alo (flmLoop a (b2j a) alo ahi alo ahi).1
      (flmLoop a (b2j a) alo ahi alo ahi).2.2 g1 (by omega)
  unfold findLongestMatch
  rw [hAB]
  dsimp only
  unfold extendFwd
  rw [extendFwdGoDiag a ahi h2 alo _ _ rfl]
  simp only [Prod.mk.injEq]
  exact ⟨trivial, trivial, by omega⟩

/-- The recursive block decomposition of `a` against itself is the single
full-length block. -/
def mbGoSelf (a : List α) (alo ahi fuel : ℕ) (h1 : alo < ahi) (h2 : ahi ≤ a.length)
    (hf : 0 < fuel) :
    mbGo a a fuel alo ahi alo ahi = [(alo, alo, ahi - alo)] := by
  cases fuel with
  | zero => omega
  | succ f =>
    rw [mbGo]
    rw [flmSelfFull a alo ahi (by omega) h2]
    dsimp only
    rw [if_neg (by omega), if_neg (by omega), if_neg (by omega)]
    simp

/-- A sequence fully matches itself. -/
def totalMatchedSelf (a : List α) : totalMatched a a = a.length := by
  rcases Nat.eq_zero_or_pos a.length with h0 | hpos
  · unfold totalMatched getMatchingBlocks matchingBlocksRec
    rw [h0]
    rw [show mbGo a a (0 - 0 + (0 - 0)) 0 0 0 0 = [] from rfl]
    rw [show mergeBlocks (0, 0, 0) [] = [] from rfl]
    simp [h0]
  · unfold totalMatched getMatchingBlocks matchingBlocksRec
    rw [mbGoSelf a 0 a.length (a.length - 0 + (a.length - 0)) hpos (le_refl _) (by omega)]
    rw [mergeBlocks, if_pos ⟨rfl, rfl⟩, mergeBlocks, if_pos (by omega)]
    simp

/-- `SequenceMatcher.ratio` of a sequence against itself is 1. -/
def ratioQSelf (a : List α) : ratioQ a a = 1 := by
  unfold ratioQ
  rcases Nat.eq_zero_or_pos a.length with h0 | hpos
  · rw [if_pos (by omega)]
  · rw [if_neg (by omega), totalMatchedSelf]
    have hne : ((a.length : ℚ) + (a.length : ℚ)) ≠ 0 := by
      have : (0 : ℚ) < (a.length : ℚ) := by exact_mod_cast hpos
      linarith
    rw [div_eq_one_iff_eq hne]
    ring

end SeqM

/-- Case analysis of one matcher-loop step: a successful step either leaves
the used set and the recorded pairs unchanged, or records exactly one pair
`(jdx, bi)` for a previously unused old index `bi` and marks it used. -/
def hceStepCases (oldList : List (Str × Str)) (st : HceState) (jdx : ℕ) (e : Str)
    (st' : HceState) (h : hceStep oldList st jdx e = .ok st') :
    (st'.1 = st.1 ∧ st'.2.2.2 = st.2.2.2) ∨
    (∃ bi, bi ∉ st.1 ∧ st'.1 = bi :: st.1 ∧ st'.2.2.2 = st.2.2.2 ++ [(jdx, bi)]) := by
  unfold hceStep at h
  by_cases hne : extractTextFromElement e = []
  · rw [if_pos hne] at h
    simp only [Except.ok.injEq] at h
    subst h
    exact Or.inl ⟨rfl, rfl⟩
  · rw [if_neg hne] at h
    rcases hbm : bestMatch oldList (extractTextFromElement e) st.1 with ⟨bo, br⟩
    rw [hbm] at h
    have spec := bestMatchGoSpec (extractTextFromElement e) st.1 oldList 0 (none, 0)
    rw [bestMatch] at hbm
    rw [hbm] at spec
    cases bo with
    | none =>
      dsimp only at h
      rcases htm : tagMatch3 e with _ | ⟨o, inner, c⟩ <;> rw [htm] at h
      · simp only [Except.ok.injEq] at h
        subst h
        exact Or.inl ⟨rfl, rfl⟩
      · rcases hrs : reSubFirst e (o ++ markElemAdded ++ inner ++ markClose ++ c) st.2.1
          with e' | r <;> simp only [← List.append_assoc] at h <;> rw [hrs] at h <;>
          simp only [Bind.bind, Except.bind, Except.ok.injEq] at h
        · exact absurd h (by simp)
        · subst h
          exact Or.inl ⟨rfl, rfl⟩
    | some bi =>
      have hbiu : bi ∉ st.1 := by
        rcases spec.2.2 with heq | ⟨k, p, hg, h1, h2, _⟩
        · exact absurd (congrArg Prod.fst heq) (by simp)
        · have : bi = k := by simpa using h1
          subst this
          simpa using h2
      dsimp only at h
      by_cases hmid : 1 / 2 < br ∧ br < 99 / 100
      · rw [if_pos hmid] at h
        rcases htm : tagMatch3 e with _ | ⟨o, inner, c⟩ <;> rw [htm] at h
        · simp only [Except.ok.injEq] at h
          subst h
          exact Or.inr ⟨bi, hbiu, rfl, rfl⟩
        · rcases hrs : reSubFirst e
              (o ++ highlightHtmlDiff
                (match tagMatch3 ((((oldList.get? bi).map Prod.snd).getD [])) with
                  | some g => g.2.1
                  | none => []) inner ++ c) st.2.1 with e' | r <;>
            simp only [← List.append_assoc] at h <;> rw [hrs] at h <;>
            simp only [Bind.bind, Except.bind, Except.ok.injEq] at h
          · exact absurd h (by simp)
          · subst h
            exact Or.inr ⟨bi, hbiu, rfl, rfl⟩
      · rw [if_neg hmid] at h
        by_cases hlow : br < 1 / 2
        · rw [if_pos hlow] at h
          rcases htm : tagMatch3 e with _ | ⟨o, inner, c⟩ <;> rw [htm] at h
          · simp only [Except.ok.injEq] at h
            subst h
            exact Or.inl ⟨rfl, rfl⟩
          · rcases hrs : reSubFirst e (o ++ markElemAdded ++ inner ++ markClose ++ c) st.2.1
              with e' | r <;> simp only [← List.append_assoc] at h <;> rw [hrs] at h <;>
              simp only [Bind.bind, Except.bind, Except.ok.injEq] at h
            · exact absurd h (by simp)
            · subst h
              exact Or.inl ⟨rfl, rfl⟩
        · rw [if_neg hlow] at h
          simp only [Except.ok.injEq] at h
          subst h
          exact Or.inl ⟨rfl, rfl⟩

/-- The matcher-loop invariant: recorded pairs have strictly increasing new
indices below the loop counter, their old indices are in the used set, and
they are pairwise distinct in both components; all preserved to the end. -/
def hceLoopPairsInv (oldList : List (Str × Str)) :
    ∀ (elems : List Str) (jdx : ℕ) (st st' : HceState),
      hceLoop oldList elems jdx st = .ok st' →
      (∀ pr ∈ st.2.2.2, pr.1 < jdx) →
      (∀ pr ∈ st.2.2.2, pr.2 ∈ st.1) →
      List.Pairwise (fun a b : ℕ × ℕ => a.1 < b.1 ∧ a.2 ≠ b.2) st.2.2.2 →
      List.Pairwise (fun a b : ℕ × ℕ => a.1 < b.1 ∧ a.2 ≠ b.2) st'.2.2.2
  | [], jdx, st, st', h, _, _, h3 => by
    simp only [hceLoop, Except.ok.injEq] at h
    subst h
    exact h3
  | e :: rest, jdx, st, st', h, h1, h2, h3 => by
    rw [hceLoop] at h
    rcases hs : hceStep oldList st jdx e with e' | st1 <;> rw [hs] at h <;>
      simp only [Bind.bind, Except.bind] at h
    · exact absurd h (by simp)
    · rcases hceStepCases oldList st jdx e st1 hs with ⟨hu, hp⟩ | ⟨bi, hbi, hu, hp⟩
      · exact hceLoopPairsInv oldList rest (jdx + 1) st1 st' h
          (by rw [hp]; intro pr hpr; exact Nat.lt_succ_of_lt (h1 pr hpr))
          (by rw [hp, hu]; exact h2) (by rw [hp]; exact h3)
      · refine hceLoopPairsInv oldList rest (jdx + 1) st1 st' h ?_ ?_ ?_
        · rw [hp]
          intro pr hpr
          rcases List.mem_append.mp hpr with hm | hm
          · exact Nat.lt_succ_of_lt (h1 pr hm)
          · simp at hm
            subst hm
            omega
        · rw [hp, hu]
          intro pr hpr
          rcases List.mem_append.mp hpr with hm | hm
          · exact List.mem_cons_of_mem _ (h2 pr hm)
          · simp at hm
            subst hm
            exact List.mem_cons_self _ _
        · rw [hp]
          refine List.pairwise_append.mpr ⟨h3, List.pairwise_singleton _ _, ?_⟩
          intro a ha b hb
          simp at hb
          subst hb
          refine ⟨h1 a ha, fun hc => hbi ?_⟩
          have := h2 a ha
          rw [hc] at this
          exact this

/-- Splitting a list at the length witnessed by one of its drops restores it. -/
def takeDropConcat (s : Str) (m : ℕ) :
    s.take (s.length - (s.drop m).length) ++ s.drop m = s := by
  rcases le_or_lt m s.length with hle | hlt
  · rw [List.length_drop, show s.length - (s.length - m) = m from by omega]
    exact List.take_append_drop m s
  · rw [List.drop_eq_nil_of_le (by omega)]
    simp

/-- Dropping from a drop-suffix is a drop-suffix. -/
def dropSuffixDrop {s t : Str} (h : ∃ m, t = s.drop m) (k : ℕ) :
    ∃ m, t.drop k = s.drop m := by
  obtain ⟨m, hm⟩ := h
  exact ⟨k + m, by rw [hm, List.drop_drop, Nat.add_comm]⟩

/-- The tail of a cons-shaped drop-suffix is a drop-suffix. -/
def dropSuffixTail {s t : Str} {c : Char} (h : ∃ m, c :: t = s.drop m) :
    ∃ m, t = s.drop m := by
  obtain ⟨m, hm⟩ := h
  exact ⟨1 + m,
    by rw [show t = (c :: t).drop 1 from rfl, hm, List.drop_drop, Nat.add_comm]⟩

/-!
Backslash-freeness (`NB`): the condition under which `re.sub`'s replacement
template parsing cannot raise.  The lemmas below transport it from the new
document through every string the annotator builds a replacement from.
-/

/-- `s` contains no backslash. -/
abbrev NB (s : Str) : Prop := '\\' ∉ s

def nbAppend {s t : Str} (hs : NB s) (ht : NB t) : NB (s ++ t) := by
  intro h
  rcases List.mem_append.mp h with h | h
  · exact hs h
  · exact ht h

def nbTake {s : Str} (hs : NB s) (n : ℕ) : NB (s.take n) :=
  fun h => hs (List.take_subset n s h)

def nbDrop {s : Str} (hs : NB s) (n : ℕ) : NB (s.drop n) :=
  fun h => hs (List.drop_subset n s h)

def nbSlice {s : Str} (hs : NB s) (a b : ℕ) : NB (pySlice s a b) :=
  nbTake (nbDrop hs a) _

def nbOfSublist {s t : Str} (h : t.Sublist s) (hs : NB s) : NB t :=
  fun hm => hs (h.subset hm)

def nbTakeWhile {s : Str} (p : Char → Bool) (hs : NB s) : NB (s.takeWhile p) :=
  nbOfSublist (List.takeWhile_sublist p) hs

def nbDropWhile {s : Str} (p : Char → Bool) (hs : NB s) : NB (s.dropWhile p) :=
  nbOfSublist (List.dropWhile_sublist p) hs

def nbMarkChanged : NB markChanged := by decide

def nbMarkAdded : NB markAdded := by decide

def nbMarkElemAdded : NB markElemAdded := by decide

def nbMarkClose : NB markClose := by decide

def nbNil : NB [] := by decide

/-- The highlight walk only emits slices of the text and marker literals. -/
def nbAhGo {text : Str} (h : NB text) :
    ∀ (le : ℕ) (rs : List (ℕ × ℕ × SeqM.OpTag)), NB (ahGo text le rs)
  | le, [] => nbDrop h le
  | le, (os, oe, t) :: rest => by
    rw [ahGo]
    refine nbAppend (nbAppend ?_ ?_) (nbAhGo h oe rest)
    · split
      · exact nbSlice h _ _
      · exact nbNil
    · split
      · exact nbAppend (nbAppend nbMarkChanged (nbSlice h _ _)) nbMarkClose
      · split
        · exact nbAppend (nbAppend nbMarkAdded (nbSlice h _ _)) nbMarkClose
        · exact nbNil

def nbApplyHighlights {text : Str} (h : NB text) (tpos : ℕ)
    (rs : List (ℕ × ℕ × SeqM.OpTag)) : NB (applyHighlightsToText text tpos rs) := by
  unfold applyHighlightsToText
  split
  · exact h
  · dsimp only
    split
    · exact h
    · exact nbAhGo h 0 _

/-- Every token the tokenizer produces is backslash-free when the input is. -/
def nbTokenizeGo : ∀ (fuel : ℕ) (s : Str), NB s →
    ∀ tok ∈ tokenizeHtmlGo fuel s, NB tok
  | 0, _, _, tok, htok => by simp [tokenizeHtmlGo] at htok
  | _ + 1, [], _, tok, htok => by simp [tokenizeHtmlGo] at htok
  | fuel + 1, c :: rest, h, tok, htok => by
    have hrest : NB rest := fun hm => h (List.mem_cons_of_mem _ hm)
    rw [tokenizeHtmlGo] at htok
    split at htok
    · rename_i hc
      subst hc
      rcases hd : rest.dropWhile (· != '>') with _ | ⟨x, after⟩ <;> rw [hd] at htok
      · exact nbTokenizeGo fuel rest hrest tok htok
      · dsimp only at htok
        split at htok
        · exact nbTokenizeGo fuel rest hrest tok htok
        · rcases List.mem_cons.mp htok with he | hm
          · subst he
            intro hmem
            rcases List.mem_cons.mp hmem with he | hm2
            · cases he
            · rcases List.mem_append.mp hm2 with hm3 | hm3
              · exact nbTakeWhile _ hrest hm3
              · simp at hm3
          · have hafter : NB after := by
              have : NB (x :: after) := by
                rw [← hd]
                exact nbDropWhile _ hrest
              exact fun hm2 => this (List.mem_cons_of_mem _ hm2)
            exact nbTokenizeGo fuel after hafter tok hm
    · rcases List.mem_cons.mp htok with he | hm
      · subst he
        exact nbTakeWhile _ h
      · exact nbTokenizeGo fuel ((c :: rest).dropWhile (· != '<'))
          (nbDropWhile _ h) tok hm

def nbHhdWalk (rs : List (ℕ × ℕ × SeqM.OpTag)) :
    ∀ (toks : List Str) (pos : ℕ), (∀ tok ∈ toks, NB tok) →
      NB (hhdWalk rs toks pos)
  | [], _, _ => nbNil
  | tok :: rest, pos, h => by
    have htok : NB tok := h tok (List.mem_cons_self _ _)
    have hrest : ∀ t ∈ rest, NB t := fun t ht => h t (List.mem_cons_of_mem _ ht)
    rw [hhdWalk.eq_def]
    dsimp only
    split
    · exact nbAppend htok (nbHhdWalk rs rest pos hrest)
    · exact nbAppend (nbApplyHighlights htok pos rs) (nbHhdWalk rs rest _ hrest)

/-- The diff annotator's output is backslash-free whenever the NEW side is
(the old side only steers decisions; its text never reaches the output). -/
def nbHighlightHtmlDiff (oldHtml : Str) {newHtml : Str} (h : NB newHtml) :
    NB (highlightHtmlDiff oldHtml newHtml) := by
  unfold highlightHtmlDiff
  dsimp only
  split
  · exact h
  · split
    · exact h
    · exact nbHhdWalk _ _ 0 (nbTokenizeGo _ _ h)

/-- The three groups of the element decomposition are slices of the element. -/
def nbTagMatch3 {elem : Str} (h : NB elem) {o i c : Str}
    (hm : tagMatch3 elem = some (o, i, c)) : NB o ∧ NB i ∧ NB c := by
  unfold tagMatch3 at hm
  split at hm
  · rename_i t heq
    dsimp only at hm
    split at hm
    · simp at hm
    · split at hm
      · split at hm
        · simp at hm
        · rename_i hfc
          simp only [Option.some.injEq, Prod.mk.injEq] at hm
          obtain ⟨h1, h2, h3⟩ := hm
          rw [← h1, ← h2, ← h3]
          exact ⟨nbTake h _, nbSlice h _ _, nbSlice h _ _⟩
      · simp at hm
  · simp at hm

/-- Template expansion is the identity on backslash-free replacements. -/
def expandTemplateGoNB (whole : Str) :
    ∀ (fuel : ℕ) (s : Str), NB s → expandTemplateGo whole fuel s = .ok s
  | 0, _, _ => rfl
  | _ + 1, [], _ => rfl
  | fuel + 1, c :: rest, h => by
    have hc : c ≠ '\\' := fun he => h (he ▸ List.mem_cons_self _ _)
    have hrest : NB rest := fun hm => h (List.mem_cons_of_mem _ hm)
    rw [expandTemplateGo.eq_def]
    dsimp only
    rw [if_neg hc, expandTemplateGoNB whole fuel rest hrest]
    rfl

/-- `re.sub` cannot raise when the replacement is backslash-free. -/
def reSubFirstNB {repl : Str} (h : NB repl) (pat s : Str) :
    reSubFirst pat repl s = .ok (replaceFirstSub pat repl s) := by
  unfold reSubFirst expandTemplate
  rw [expandTemplateGoNB pat repl.length repl h]
  rfl

/-- The `<main>` body is a slice of the document. -/
def nbScanMain : ∀ {s : Str}, NB s → ∀ {g : Str}, scanMain s = some g → NB g
  | [], _, g, h => by simp [scanMain] at h
  | c :: rest, hs, g, h => by
    have hrest : NB rest := fun hm => hs (List.mem_cons_of_mem _ hm)
    rw [scanMain] at h
    split at h
    · dsimp only at h
      split at h
      · split at h
        · rename_i q hq
          simp only [Option.some.injEq] at h
          rw [← h]
          exact nbTake (nbDrop (nbDrop hs 5) _) q
        · exact nbScanMain hrest h
      · exact nbScanMain hrest h
    · exact nbScanMain hrest h

/-- The content-div body is a slice of the candidate. -/
def nbMatchDivAt {s0 : Str} (hs : NB s0) {g : Str} (h : matchDivAt s0 = some g) :
    NB g := by
  unfold matchDivAt at h
  obtain ⟨k1, h1⟩ := greedyStarSome _ _ _ _ h
  try dsimp only at h1
  split at h1
  · obtain ⟨k3, h3⟩ := greedyStarSome _ _ _ _ h1
    try dsimp only at h3
    split at h3
    · obtain ⟨k5, h5⟩ := greedyStarSome _ _ _ _ h3
      try dsimp only at h5
      split at h5
      · rename_i t6 heq6
        obtain ⟨k7, h7⟩ := greedyStarSome _ _ _ _ h5
        try dsimp only at h7
        split at h7
        · rename_i t8 heq8
          split at h7
          · rename_i q hq
            simp only [Option.some.injEq] at h7
            rw [← h7]
            have hsuf8 : ∃ m, t8 = s0.drop m := by
              refine dropSuffixTail (c := '>') ?_
              rw [← heq8]
              obtain ⟨m6, hm6⟩ : ∃ m, t6 = s0.drop m := by
                refine dropSuffixTail (c := '"') ?_
                rw [← heq6]
                simp only [List.drop_drop]
                exact ⟨_, rfl⟩
              rw [hm6]
              simp only [List.drop_drop]
              exact ⟨_, rfl⟩
            obtain ⟨m8, hm8⟩ := hsuf8
            rw [hm8]
            exact nbTake (nbDrop hs m8) q
          · simp at h7
        · simp at h7
      · simp at h5
    · simp at h3
  · simp at h1

def nbScanContentDiv : ∀ {s : Str}, NB s → ∀ {g : Str},
    scanContentDiv s = some g → NB g
  | [], _, g, h => by simp [scanContentDiv] at h
  | c :: rest, hs, g, h => by
    have hrest : NB rest := fun hm => hs (List.mem_cons_of_mem _ hm)
    rw [scanContentDiv] at h
    split at h
    · split at h
      · rename_i g' hg'
        simp only [Option.some.injEq] at h
        rw [← h]
        exact nbMatchDivAt hs hg'
      · exact nbScanContentDiv hrest h
    · exact nbScanContentDiv hrest h

def nbExtractMain {s : Str} (hs : NB s) : NB (extractMainContent s) := by
  unfold extractMainContent
  split
  · rename_i g hg
    exact nbScanMain hs hg
  · split
    · rename_i g hg
      exact nbScanContentDiv hs hg
    · exact hs

/-- Every unit found in a backslash-free document is backslash-free. -/
def nbFindUnitsGo : ∀ (fuel : ℕ) {s : Str}, NB s →
    ∀ u ∈ findUnitsGo fuel s, NB u
  | 0, _, _, u, hu => by simp [findUnitsGo] at hu
  | _ + 1, [], _, u, hu => by simp [findUnitsGo] at hu
  | fuel + 1, c :: rest, hs, u, hu => by
    have hrest : NB rest := fun hm => hs (List.mem_cons_of_mem _ hm)
    rw [findUnitsGo] at hu
    split at hu
    · exact nbFindUnitsGo fuel hrest u hu
    · split at hu
      · exact nbFindUnitsGo fuel hrest u hu
      · rcases List.mem_cons.mp hu with he | hm
        · subst he
          exact nbTake hs _
        · exact nbFindUnitsGo fuel (nbDrop hs _) u hm

/-- One matcher step cannot raise when the new element is backslash-free. -/
def hceStepNB (oldList : List (Str × Str)) (st : HceState) (jdx : ℕ) {e : Str}
    (he : NB e) : ∃ st', hceStep oldList st jdx e = .ok st' := by
  unfold hceStep
  by_cases hne : extractTextFromElement e = []
  · rw [if_pos hne]
    exact ⟨st, rfl⟩
  · rw [if_neg hne]
    rcases hbm : bestMatch oldList (extractTextFromElement e) st.1 with ⟨bo, br⟩
    cases bo with
    | none =>
      dsimp only
      rcases htm : tagMatch3 e with _ | ⟨o, inner, c⟩ <;> dsimp only
      · exact ⟨st, rfl⟩
      · obtain ⟨ho, hi, hc⟩ := nbTagMatch3 he htm
        have hrepl : NB (o ++ markElemAdded ++ inner ++ markClose ++ c) :=
          nbAppend (nbAppend (nbAppend (nbAppend ho nbMarkElemAdded) hi) nbMarkClose) hc
        exact ⟨_, by rw [reSubFirstNB hrepl]; rfl⟩
    | some bi =>
      dsimp only
      by_cases hmid : 1 / 2 < br ∧ br < 99 / 100
      · rw [if_pos hmid]
        rcases htm : tagMatch3 e with _ | ⟨o, inner, c⟩ <;> dsimp only
        · exact ⟨_, rfl⟩
        · obtain ⟨ho, hi, hc⟩ := nbTagMatch3 he htm
          have hrepl : NB (o ++ highlightHtmlDiff
              (match tagMatch3 ((((oldList.get? bi).map Prod.snd).getD [])) with
                | some g => g.2.1
                | none => []) inner ++ c) :=
            nbAppend (nbAppend ho (nbHighlightHtmlDiff _ hi)) hc
          exact ⟨_, by rw [reSubFirstNB hrepl]; rfl⟩
      · rw [if_neg hmid]
        by_cases hlow : br < 1 / 2
        · rw [if_pos hlow]
          rcases htm : tagMatch3 e with _ | ⟨o, inner, c⟩ <;> dsimp only
          · exact ⟨st, rfl⟩
          · obtain ⟨ho, hi, hc⟩ := nbTagMatch3 he htm
            have hrepl : NB (o ++ markElemAdded ++ inner ++ markClose ++ c) :=
              nbAppend (nbAppend (nbAppend (nbAppend ho nbMarkElemAdded) hi) nbMarkClose) hc
            exact ⟨_, by rw [reSubFirstNB hrepl]; rfl⟩
        · rw [if_neg hlow]
          exact ⟨st, rfl⟩

def hceLoopNB (oldList : List (Str × Str)) :
    ∀ (elems : List Str) (jdx : ℕ) (st : HceState), (∀ x ∈ elems, NB x) →
      ∃ st', hceLoop oldList elems jdx st = .ok st'
  | [], _, st, _ => ⟨st, rfl⟩
  | e :: rest, jdx, st, h => by
    obtain ⟨st1, h1⟩ := hceStepNB oldList st jdx (h e (List.mem_cons_self _ _))
    obtain ⟨st2, h2⟩ := hceLoopNB oldList rest (jdx + 1) st1
      (fun x hx => h x (List.mem_cons_of_mem _ hx))
    refine ⟨st2, ?_⟩
    rw [hceLoop, h1]
    simpa [Bind.bind, Except.bind] using h2

/-- The element annotator cannot raise on a backslash-free new document. -/
def hceNB (oldHtml : Str) {newHtml : Str} (h : NB newHtml) :
    ∃ r, highlightChangedElements oldHtml newHtml = .ok r := by
  unfold highlightChangedElements
  by_cases ho : oldHtml = []
  · rw [if_pos ho]
    exact ⟨_, rfl⟩
  · rw [if_neg ho]
    dsimp only
    obtain ⟨st, hst⟩ := hceLoopNB (oldElemListOf (extractMainContent oldHtml))
      (findUnits (extractMainContent newHtml)) 0 ([], newHtml, 0, [])
      (fun x hx => nbFindUnitsGo _ (nbExtractMain h) x hx)
    rw [hst]
    exact ⟨_, rfl⟩

/-!
Marker stripping: lemmas showing that removing the inserted wrappers from the
annotator's output restores the wrapped text, on tokens free of `'<'`.
-/

/-- A cons-headed list is a prefix only if the heads agree. -/
def prefixHeadEq {a c : Char} {t rest : Str}
    (h : (a :: t).isPrefixOf (c :: rest) = true) : c = a := by
  simp only [List.isPrefixOf, Bool.and_eq_true, beq_iff_eq] at h
  exact h.1.symm

/-- No marker literal matches at a character other than `'<'`. -/
def matchLitAtNone {c : Char} (hc : c ≠ '<') (rest : Str) :
    matchLitAt (c :: rest) = none := by
  unfold matchLitAt
  rw [if_neg, if_neg, if_neg, if_neg]
  · exact fun hp => hc (prefixHeadEq (a := '<') hp)
  · exact fun hp => hc (prefixHeadEq (a := '<') hp)
  · exact fun hp => hc (prefixHeadEq (a := '<') hp)
  · exact fun hp => hc (prefixHeadEq (a := '<') hp)

/-- A pattern that diverges from `M` within `M`'s length matches no extension
of `M`. -/
def notPrefixAppend (L M rest : Str)
    (h : (L.take M.length).isPrefixOf M = false) :
    L.isPrefixOf (M ++ rest) = false := by
  by_contra hcon
  rw [Bool.not_eq_false, List.isPrefixOf_iff_prefix] at hcon
  have h2 : L.take M.length <+: M ++ rest := (List.take_prefix _ _).trans hcon
  have hlen : (L.take M.length).length ≤ M.length := by simp
  have h5 := List.prefix_iff_eq_take.mp h2
  rw [List.take_append_of_le_length hlen] at h5
  have h3 : L.take M.length <+: M := by
    rw [h5]
    exact List.take_prefix _ M
  rw [← List.isPrefixOf_iff_prefix] at h3
  rw [h3] at h
  cases h

/-- The four marker-matching equations. -/
def matchLitAtChanged (rest : Str) : matchLitAt (markChanged ++ rest) = some rest := by
  unfold matchLitAt
  rw [if_pos, List.drop_left]
  rw [List.isPrefixOf_iff_prefix]
  exact List.prefix_append _ _

def matchLitAtAdded (rest : Str) : matchLitAt (markAdded ++ rest) = some rest := by
  unfold matchLitAt
  rw [if_neg, if_pos, List.drop_left]
  · rw [List.isPrefixOf_iff_prefix]
    exact List.prefix_append _ _
  · rw [notPrefixAppend _ _ _ (by decide)]
    simp

def matchLitAtElemAdded (rest : Str) :
    matchLitAt (markElemAdded ++ rest) = some rest := by
  unfold matchLitAt
  rw [if_neg, if_neg, if_pos, List.drop_left]
  · rw [List.isPrefixOf_iff_prefix]
    exact List.prefix_append _ _
  · rw [notPrefixAppend _ _ _ (by decide)]
    simp
  · rw [notPrefixAppend _ _ _ (by decide)]
    simp

def matchLitAtClose (rest : Str) : matchLitAt (markClose ++ rest) = some rest := by
  unfold matchLitAt
  rw [if_neg, if_neg, if_neg, if_pos, List.drop_left]
  · rw [List.isPrefixOf_iff_prefix]
    exact List.prefix_append _ _
  · rw [notPrefixAppend _ _ _ (by decide)]
    simp
  · rw [notPrefixAppend _ _ _ (by decide)]
    simp
  · rw [notPrefixAppend _ _ _ (by decide)]
    simp

/-- Stripping leaves `'<'`-free text untouched. -/
def stripNoLT : ∀ (fuel : ℕ) {s : Str}, '<' ∉ s → stripMarksGo fuel s = s
  | 0, _, _ => rfl
  | _ + 1, [], _ => rfl
  | fuel + 1, c :: rest, h => by
    have hc : c ≠ '<' := fun he => h (he ▸ List.mem_cons_self _ _)
    have hrest : '<' ∉ rest := fun hm => h (List.mem_cons_of_mem _ hm)
    rw [stripMarksGo, matchLitAtNone hc, stripNoLT fuel hrest]

/-- Stripping walks over a `'<'`-free block unchanged, spending its length. -/
def stripOverNoLT : ∀ (a : Str) (f : ℕ) (b : Str), '<' ∉ a → a.length ≤ f →
    stripMarksGo f (a ++ b) = a ++ stripMarksGo (f - a.length) b
  | [], f, b, _, _ => by simp
  | c :: a', f, b, h, hf => by
    have hc : c ≠ '<' := fun he => h (he ▸ List.mem_cons_self _ _)
    have ha' : '<' ∉ a' := fun hm => h (List.mem_cons_of_mem _ hm)
    cases f with
    | zero => simp at hf
    | succ f' =>
      rw [List.cons_append, stripMarksGo, matchLitAtNone hc,
        stripOverNoLT a' f' b ha' (by simp at hf; omega),
        show (c :: a').length = a'.length + 1 from by simp,
        show f' + 1 - (a'.length + 1) = f' - a'.length from by omega]
      simp

/-- Stripping absorbs a marker literal, spending one unit of fuel. -/
def stripOverMark {mk : Str} (hm : ∀ rest, matchLitAt (mk ++ rest) = some rest)
    (hne : mk ≠ []) : ∀ (f : ℕ) (b : Str), 1 ≤ f →
      stripMarksGo f (mk ++ b) = stripMarksGo (f - 1) b := by
  intro f b hf
  cases f with
  | zero => omega
  | succ f' =>
    rcases hmk : mk with _ | ⟨c, mk'⟩
    · exact absurd hmk hne
    · rw [List.cons_append, stripMarksGo]
      have := hm b
      rw [hmk, List.cons_append] at this
      rw [this]
      rfl

/-- A slice glued back onto the remainder restores the suffix. -/
def sliceDropConcat (text : Str) (a b : ℕ) (hab : a ≤ b) :
    pySlice text a b ++ text.drop b = text.drop a := by
  unfold pySlice
  rw [show text.drop b = (text.drop a).drop (b - a) from by
    rw [List.drop_drop]
    congr 1
    omega]
  exact List.take_append_drop _ _

/-- Stripping one wrapped block: marker, `'<'`-free slice, closing marker. -/
def stripWrap {mk : Str} (hm : ∀ r, matchLitAt (mk ++ r) = some r) (hmne : mk ≠ [])
    (gap slice tailRec R : Str) (f : ℕ)
    (hgap : '<' ∉ gap) (hslice : '<' ∉ slice)
    (hf : (gap ++ (mk ++ (slice ++ (markClose ++ tailRec)))).length ≤ f)
    (htail : ∀ f', tailRec.length ≤ f' → stripMarksGo f' tailRec = R) :
    stripMarksGo f (gap ++ (mk ++ (slice ++ (markClose ++ tailRec)))) =
      gap ++ (slice ++ R) := by
  simp only [List.length_append] at hf
  have hmk1 : 1 ≤ mk.length := by
    cases mk with
    | nil => exact absurd rfl hmne
    | cons c t => simp
  have hcl1 : 1 ≤ markClose.length := by decide
  rw [stripOverNoLT gap f _ hgap (by omega)]
  rw [stripOverMark hm hmne _ _ (by omega)]
  rw [stripOverNoLT slice _ _ hslice (by omega)]
  rw [stripOverMark matchLitAtClose (by decide) _ _ (by omega)]
  rw [htail _ (by omega)]

/-- The shape in which the annotator's walk receives its ranges: ascending,
disjoint, inside the text, and tagged `replace` or `insert` only. -/
def Chain3 (len : ℕ) : ℕ → List (ℕ × ℕ × SeqM.OpTag) → Prop
  | _, [] => True
  | lastEnd, (os, oe, t) :: rest =>
    lastEnd ≤ os ∧ os ≤ oe ∧ oe ≤ len ∧
      (t = SeqM.OpTag.replace ∨ t = SeqM.OpTag.insert) ∧ Chain3 len oe rest

/-- Round trip of the highlight wrapper on a `'<'`-free text token: stripping
the inserted markers from the walked output restores the text exactly. -/
def stripAhGo {text : Str} (hlt : '<' ∉ text) :
    ∀ (rs : List (ℕ × ℕ × SeqM.OpTag)) (lastEnd : ℕ) (f : ℕ),
      Chain3 text.length lastEnd rs →
      (ahGo text lastEnd rs).length ≤ f →
      stripMarksGo f (ahGo text lastEnd rs) = text.drop lastEnd
  | [], lastEnd, f, _, _ => by
    rw [ahGo]
    exact stripNoLT f (fun hm => hlt (List.drop_subset _ _ hm))
  | (os, oe, t) :: rest, lastEnd, f, hch, hf => by
    obtain ⟨h1, h2, h3, h4, h5⟩ := hch
    have hgap : '<' ∉ (if lastEnd < os then pySlice text lastEnd os else []) := by
      split
      · exact fun hm => hlt (List.drop_subset _ _ (List.take_subset _ _ hm))
      · simp
    have hslice : '<' ∉ pySlice text os oe :=
      fun hm => hlt (List.drop_subset _ _ (List.take_subset _ _ hm))
    have hrec : ∀ f', (ahGo text oe rest).length ≤ f' →
        stripMarksGo f' (ahGo text oe rest) = text.drop oe :=
      fun f' hf' => stripAhGo hlt rest oe f' h5 hf'
    have hglue : (if lastEnd < os then pySlice text lastEnd os else []) ++
        (pySlice text os oe ++ text.drop oe) = text.drop lastEnd := by
      rw [sliceDropConcat text os oe h2]
      split
      · exact sliceDropConcat text lastEnd os (by omega)
      · rename_i hge
        rw [List.nil_append]
        congr 1
        omega
    rcases h4 with ht | ht <;> subst ht
    · have hout : ahGo text lastEnd ((os, oe, SeqM.OpTag.replace) :: rest) =
          (if lastEnd < os then pySlice text lastEnd os else []) ++
            (markChanged ++ (pySlice text os oe ++
              (markClose ++ ahGo text oe rest))) := by
        rw [ahGo, if_pos rfl]
        simp [List.append_assoc]
      rw [hout] at hf ⊢
      rw [stripWrap matchLitAtChanged (by decide) _ _ _ _ f hgap hslice hf hrec]
      exact hglue
    · have hout : ahGo text lastEnd ((os, oe, SeqM.OpTag.insert) :: rest) =
          (if lastEnd < os then pySlice text lastEnd os else []) ++
            (markAdded ++ (pySlice text os oe ++
              (markClose ++ ahGo text oe rest))) := by
        rw [ahGo, if_neg (show ¬(SeqM.OpTag.insert = SeqM.OpTag.replace) from by simp),
          if_pos rfl]
        simp [List.append_assoc]
      rw [hout] at hf ⊢
      rw [stripWrap matchLitAtAdded (by decide) _ _ _ _ f hgap hslice hf hrec]
      exact hglue

/-! ## Properties -/

/-- C6, counterexample: a whitespace-only sub-span of a text token that
contains non-whitespace elsewhere IS wrapped in a highlight marker when a
range covers it: on `"a b"` with the range `[1,2)`, the single space is
wrapped. -/
theorem c6_ws_subspan_counterexample :
    applyHighlightsToText (str "a b") 0 [(1, 2, SeqM.OpTag.insert)] =
      str "a<mark class=\"preview-text-added\"> </mark>b" ∧
    pyStrip (pySlice (str "a b") 1 2) = [] := by
  constructor <;> rfl

/-- C6, amended: only whitespace-only text TOKENS are never wrapped — a text
token whose `strip()` is empty is returned unchanged whatever the ranges. -/
theorem c6_ws_token_never_wrapped (text : Str) (tpos : ℕ)
    (ranges : List (ℕ × ℕ × SeqM.OpTag)) (h : pyStrip text = []) :
    applyHighlightsToText text tpos ranges = text := by
  unfold applyHighlightsToText
  rw [if_pos h]

/-- C6, witness for the amended theorem. -/
theorem c6_ws_token_never_wrapped_witness :
    pyStrip (str "  ") = [] ∧
    applyHighlightsToText (str "  ") 0 [(0, 2, SeqM.OpTag.insert)] = str "  " :=
  ⟨by rfl, c6_ws_token_never_wrapped (str "  ") 0 [(0, 2, SeqM.OpTag.insert)] (by rfl)⟩

/-- C1: the Annotator's running offset counts raw markup characters (entities
undecoded, the extractor's strip not applied), while the Aligner's ranges are
offsets into the decoded, stripped projection.  On the unit pair
`a&amp;b <b>y</b>` → `a&amp;b <b>x</b>` the aligner flags `x` (offset 4 of the
projection `a&b x`), but the annotator wraps the `p` inside the entity
`&amp;` (raw offset 4) and leaves `x` unmarked. -/
theorem c1_offset_bug :
    extractTextFromElement (str "<div>a&amp;b <b>x</b></div>") = str "a&b x" ∧
    changedRangesOf (splitRuns (str "a&b y")) (splitRuns (str "a&b x")) =
      [(4, 5, SeqM.OpTag.replace)] ∧
    highlightHtmlDiff (str "a&amp;b <b>y</b>") (str "a&amp;b <b>x</b>") =
      str "a&am<mark class=\"preview-text-changed\">p</mark>;b <b>x</b>" := by
  refine ⟨by rfl, by rfl, by rfl⟩

/-- C2, counterexample: at ratio exactly 0.5 the matcher takes neither
branch — no `MatchedPair` is emitted, the old unit is not consumed, and the
unit is not flagged, although the claim requires a `modified` pair for
`0.5 ≤ r < 0.99`. -/
theorem c2_boundary_counterexample :
    SeqM.ratioQ (str "ab") (str "ax") = 1 / 2 ∧
    highlightChangedElements (str "<p>ab</p>") (str "<p>ax</p>") =
      .ok (str "<p>ax</p>", 0, []) :=
  ⟨by decide, by rfl⟩

/-- C2, amended: the thresholds are strict on the lower bound.  For a new
unit with non-empty text and best ratio `r` against the unused old units:
`r ≥ 0.99` leaves everything unchanged; `r = 0.5` exactly also leaves
everything unchanged; `0.5 < r < 0.99` records the `MatchedPair` and marks
the old unit used; `r < 0.5` (or no candidate) flags the whole unit added,
consuming no old unit. -/
theorem c2_matcher_classification (oldList : List (Str × Str)) (st : HceState)
    (jdx : ℕ) (newElem : Str) (hne : extractTextFromElement newElem ≠ []) :
    (∀ bi, (bestMatch oldList (extractTextFromElement newElem) st.1).1 = some bi →
      99 / 100 ≤ (bestMatch oldList (extractTextFromElement newElem) st.1).2 →
      hceStep oldList st jdx newElem = .ok st) ∧
    (∀ bi, (bestMatch oldList (extractTextFromElement newElem) st.1).1 = some bi →
      (bestMatch oldList (extractTextFromElement newElem) st.1).2 = 1 / 2 →
      hceStep oldList st jdx newElem = .ok st) ∧
    (∀ bi, (bestMatch oldList (extractTextFromElement newElem) st.1).1 = some bi →
      1 / 2 < (bestMatch oldList (extractTextFromElement newElem) st.1).2 →
      (bestMatch oldList (extractTextFromElement newElem) st.1).2 < 99 / 100 →
      ∀ st', hceStep oldList st jdx newElem = .ok st' →
        st'.1 = bi :: st.1 ∧ st'.2.2.2 = st.2.2.2 ++ [(jdx, bi)]) ∧
    (((bestMatch oldList (extractTextFromElement newElem) st.1).1 = none ∨
        (bestMatch oldList (extractTextFromElement newElem) st.1).2 < 1 / 2) →
      ∀ st', hceStep oldList st jdx newElem = .ok st' →
        st'.1 = st.1 ∧ st'.2.2.2 = st.2.2.2 ∧
        (∀ o inner c, tagMatch3 newElem = some (o, inner, c) →
          ∀ r, reSubFirst newElem (o ++ markElemAdded ++ inner ++ markClose ++ c) st.2.1 = .ok r →
            st'.2.1 = r)) := by
  unfold hceStep
  rw [if_neg hne]
  rcases hbm : bestMatch oldList (extractTextFromElement newElem) st.1 with ⟨bo, br⟩
  cases bo with
  | none =>
    refine ⟨by intro bi h; simp at h, by intro bi h; simp at h, by intro bi h; simp at h, ?_⟩
    intro _ st'
    rcases htm : tagMatch3 newElem with _ | ⟨o, inner, c⟩
    · intro h
      simp only [Except.ok.injEq] at h
      subst h
      exact ⟨rfl, rfl, by intro o inner c hcon; simp at hcon⟩
    · rcases hrs : reSubFirst newElem (o ++ markElemAdded ++ inner ++ markClose ++ c) st.2.1
        with e | r
      · intro h
        simp only [← List.append_assoc] at h
        rw [hrs] at h
        simp [Bind.bind, Except.bind] at h
      · intro h
        simp only [← List.append_assoc] at h
        rw [hrs] at h
        simp only [Bind.bind, Except.bind, Except.ok.injEq] at h
        subst h
        refine ⟨rfl, rfl, ?_⟩
        intro o' inner' c' htm'
        simp only [Option.some.injEq, Prod.mk.injEq] at htm'
        obtain ⟨h1, h2, h3⟩ := htm'
        subst h1; subst h2; subst h3
        intro r' hr'
        rw [hrs] at hr'
        simp only [Except.ok.injEq] at hr'
        subst hr'
        rfl
  | some bi0 =>
    dsimp only
    by_cases hmid : 1 / 2 < br ∧ br < 99 / 100
    · rw [if_pos hmid]
      refine ⟨?_, ?_, ?_, ?_⟩
      · intro bi hbi hge
        exfalso
        have := hmid.2
        linarith
      · intro bi hbi heq
        exfalso
        have := hmid.1
        rw [heq] at this
        linarith
      · intro bi hbi h1 h2 st' hst
        simp only [Option.some.injEq] at hbi
        subst hbi
        rcases htm : tagMatch3 newElem with _ | ⟨o, inner, c⟩ <;> rw [htm] at hst
        · simp only [Except.ok.injEq] at hst
          subst hst
          exact ⟨rfl, rfl⟩
        · rcases hrs : reSubFirst newElem
              (o ++ highlightHtmlDiff
                (match tagMatch3 ((((oldList.get? bi0).map Prod.snd).getD [])) with
                  | some g => g.2.1
                  | none => []) inner ++ c) st.2.1 with e | r <;>
            simp only [← List.append_assoc] at hst <;> rw [hrs] at hst <;>
            simp only [Bind.bind, Except.bind, Except.ok.injEq] at hst
          · exact absurd hst (by simp)
          · subst hst
            exact ⟨rfl, rfl⟩
      · intro hor st' hst
        exfalso
        rcases hor with hor | hor
        · simp at hor
        · have := hmid.1
          linarith
    · rw [if_neg hmid]
      by_cases hlow : br < 1 / 2
      · rw [if_pos hlow]
        refine ⟨?_, ?_, ?_, ?_⟩
        · intro bi hbi hge
          exfalso
          linarith
        · intro bi hbi heq
          exfalso
          rw [heq] at hlow
          linarith
        · intro bi hbi h1 h2
          exfalso
          exact hmid ⟨h1, h2⟩
        · intro _ st'
          rcases htm : tagMatch3 newElem with _ | ⟨o, inner, c⟩
          · intro h
            simp only [Except.ok.injEq] at h
            subst h
            exact ⟨rfl, rfl, by intro o inner c hcon; simp at hcon⟩
          · rcases hrs : reSubFirst newElem (o ++ markElemAdded ++ inner ++ markClose ++ c) st.2.1
              with e | r
            · intro h
              simp only [← List.append_assoc] at h
              rw [hrs] at h
              simp [Bind.bind, Except.bind] at h
            · intro h
              simp only [← List.append_assoc] at h
              rw [hrs] at h
              simp only [Bind.bind, Except.bind, Except.ok.injEq] at h
              subst h
              refine ⟨rfl, rfl, ?_⟩
              intro o' inner' c' htm'
              simp only [Option.some.injEq, Prod.mk.injEq] at htm'
              obtain ⟨h1, h2, h3⟩ := htm'
              subst h1; subst h2; subst h3
              intro r' hr'
              rw [hrs] at hr'
              simp only [Except.ok.injEq] at hr'
              subst hr'
              rfl
      · rw [if_neg hlow]
        refine ⟨?_, ?_, ?_, ?_⟩
        · intro bi hbi hge
          rfl
        · intro bi hbi heq
          rfl
        · intro bi hbi h1 h2
          exfalso
          exact hmid ⟨h1, h2⟩
        · intro hor
          exfalso
          rcases hor with hor | hor
          · simp at hor
          · exact hlow hor

/-- C4, counterexample: with the old document absent and no banner placeholder
in the new document, the pipeline writes nothing at all — the output equals the
input, although the document has a content unit (`<p>hello</p>`), and no
added-element marker appears anywhere in the output. -/
theorem c4_no_old_counterexample :
    processFile (str "<p>hello</p>") none = .ok (str "<p>hello</p>") ∧
    findUnits (str "<p>hello</p>") = [str "<p>hello</p>"] ∧
    containsSub markElemAdded (str "<p>hello</p>") = false :=
  ⟨by rfl, by rfl, by rfl⟩

/-- C4, amended: with no old document the pipeline short-circuits WITHOUT any
inline flagging: if the new document has no banner placeholder it is returned
unchanged, and with a placeholder only the banner is injected, at similarity
`0` (the `elif has_placeholder` tail of `process_file`). -/
theorem c4_no_old_short_circuit (newHtml : Str) :
    (containsSub (str "PREVIEW_BANNER_PLACEHOLDER") newHtml = false →
      processFile newHtml none = .ok newHtml) ∧
    (containsSub (str "PREVIEW_BANNER_PLACEHOLDER") newHtml = true →
      processFile newHtml none = .ok (injectCombinedBanner newHtml 0)) := by
  constructor <;> intro h <;> simp [processFile, processFileNoOld, h]

/-- C4, witness: the no-placeholder case on `<p>hi</p>` returns it unchanged. -/
theorem c4_no_old_short_circuit_witness :
    containsSub (str "PREVIEW_BANNER_PLACEHOLDER") (str "<p>hi</p>") = false ∧
    processFile (str "<p>hi</p>") none = .ok (str "<p>hi</p>") :=
  ⟨by rfl, (c4_no_old_short_circuit (str "<p>hi</p>")).1 (by rfl)⟩

/-- C10: when the matcher returns an old index `bi`, that index is unused, it
attains the returned ratio `br`, every unused old unit's ratio is at most
`br`, and every unused old unit strictly BEFORE `bi` has a ratio strictly
below `br` — so under ties the earliest old unit wins (`ratio > best_ratio`
is strict) and the choice is deterministic. -/
theorem c10_tie_break (oldList : List (Str × Str)) (newText : Str) (used : List ℕ)
    (bi : ℕ) (br : ℚ) (h : bestMatch oldList newText used = (some bi, br)) :
    ∃ p, oldList.get? bi = some p ∧ bi ∉ used ∧
      SeqM.ratioQ p.1 newText = br ∧
      (∀ i q, oldList.get? i = some q → i ∉ used →
        SeqM.ratioQ q.1 newText ≤ br) ∧
      (∀ i q, i < bi → oldList.get? i = some q → i ∉ used →
        SeqM.ratioQ q.1 newText < br) := by
  have spec := bestMatchGoSpec newText used oldList 0 (none, 0)
  rw [bestMatch] at h
  rw [h] at spec
  obtain ⟨ha, _, hc⟩ := spec
  rcases hc with heq | ⟨k, p, hg, h1, h2, h3, h4, h5⟩
  · exact absurd (congrArg Prod.fst heq) (by simp)
  · simp only [Nat.zero_add] at h1 h2 h5
    have hbik : bi = k := by simpa using h1
    subst hbik
    refine ⟨p, hg, h2, h3, ?_, ?_⟩
    · intro i q hgi hiu
      have := ha i q hgi (by simpa using hiu)
      simpa using this
    · intro i q hi hgi hiu
      exact h5 i q hi hgi hiu

/-- C10, witness: two unused old units both at ratio 1 against the new text —
the matcher returns index 0, and the theorem instantiates at it. -/
theorem c10_tie_break_witness :
    bestMatch [(str "ab", str "<p>u</p>"), (str "ab", str "<p>v</p>")] (str "ab") [] =
      (some 0, 1) ∧
    ∃ p, [(str "ab", str "<p>u</p>"), (str "ab", str "<p>v</p>")].get? 0 = some p ∧
      (0 : ℕ) ∉ ([] : List ℕ) ∧
      SeqM.ratioQ p.1 (str "ab") = 1 ∧
      (∀ i q, [(str "ab", str "<p>u</p>"), (str "ab", str "<p>v</p>")].get? i = some q →
        i ∉ ([] : List ℕ) → SeqM.ratioQ q.1 (str "ab") ≤ 1) ∧
      (∀ i q, i < 0 → [(str "ab", str "<p>u</p>"), (str "ab", str "<p>v</p>")].get? i = some q →
        i ∉ ([] : List ℕ) → SeqM.ratioQ q.1 (str "ab") < 1) :=
  ⟨by decide, c10_tie_break _ _ _ 0 1 (by decide)⟩

/-- C8: the matching is partial and injective — in the list of MatchedPairs
produced by `highlight_changed_elements`, no new-unit index and no old-unit
index occurs twice (new indices are even strictly increasing). -/
theorem c8_matching_injective (oldHtml newHtml html : Str) (n : ℕ)
    (pairs : List (ℕ × ℕ))
    (h : highlightChangedElements oldHtml newHtml = .ok (html, n, pairs)) :
    (pairs.map Prod.fst).Nodup ∧ (pairs.map Prod.snd).Nodup := by
  unfold highlightChangedElements at h
  by_cases ho : oldHtml = []
  · rw [if_pos ho] at h
    simp only [Except.ok.injEq, Prod.mk.injEq] at h
    rw [← h.2.2]
    exact ⟨List.nodup_nil, List.nodup_nil⟩
  · rw [if_neg ho] at h
    dsimp only at h
    rcases hl : hceLoop (oldElemListOf (extractMainContent oldHtml))
        (findUnits (extractMainContent newHtml)) 0 ([], newHtml, 0, []) with e | st <;>
      rw [hl] at h <;> simp only [Except.map] at h
    · exact absurd h (by simp)
    · simp only [Except.ok.injEq, Prod.mk.injEq] at h
      have hpw := hceLoopPairsInv (oldElemListOf (extractMainContent oldHtml))
        (findUnits (extractMainContent newHtml)) 0 ([], newHtml, 0, []) st hl
        (by intro pr hpr; simp at hpr) (by intro pr hpr; simp at hpr)
        List.Pairwise.nil
      rw [← h.2.2]
      exact ⟨List.pairwise_map.mpr (hpw.imp fun hab => Nat.ne_of_lt hab.1),
        List.pairwise_map.mpr (hpw.imp fun hab => hab.2)⟩

/-- C8, witness: the concrete run that matches old unit 0 to new unit 0 yields
the pair list `[(0, 0)]`, distinct in both components. -/
theorem c8_matching_injective_witness :
    highlightChangedElements (str "<p>xx q</p>") (str "<p>xx NEW</p>") =
      .ok (str "<p>xx <mark class=\"preview-text-changed\">NEW</mark></p>", 1, [(0, 0)]) ∧
    (([(0, 0)] : List (ℕ × ℕ)).map Prod.fst).Nodup ∧
    (([(0, 0)] : List (ℕ × ℕ)).map Prod.snd).Nodup :=
  ⟨by rfl, c8_matching_injective (str "<p>xx q</p>") (str "<p>xx NEW</p>")
    (str "<p>xx <mark class=\"preview-text-changed\">NEW</mark></p>") 1 [(0, 0)] (by rfl)⟩

/-- C9, counterexample: the similarity is NOT symmetric — `difflib`'s greedy
block decomposition gives ratio 1/4 for `tide` against `diet` but 1/2 in the
reverse direction — and on a pair of identical EMPTY documents the orchestrator
short-circuits to similarity 0, not 1. -/
theorem c9_similarity_counterexample :
    findChangedSections (str "<main>tide</main>") (str "<main>diet</main>") =
      (true, 1 / 4) ∧
    findChangedSections (str "<main>diet</main>") (str "<main>tide</main>") =
      (true, 1 / 2) ∧
    findChangedSections [] [] = (false, 0) :=
  ⟨by decide, by decide, by rfl⟩

/-- C9, amended: reflexivity holds for every NON-EMPTY document — comparing a
document with itself yields similarity exactly 1 (and no diff), via
`ratio(a, a) = 1`, which holds for every sequence including autojunk-affected
ones; but symmetry fails in general and the empty document has self-similarity
0. -/
theorem c9_similarity_self (doc : Str) (h : doc ≠ []) :
    findChangedSections doc doc = (false, 1) := by
  unfold findChangedSections
  rw [if_neg h]
  dsimp only
  rw [SeqM.ratioQSelf]
  rw [if_pos (by norm_num)]

/-- C9, witness: a concrete non-empty document compared with itself. -/
theorem c9_similarity_self_witness :
    (str "<p>x</p>" ≠ []) ∧
    findChangedSections (str "<p>x</p>") (str "<p>x</p>") = (false, 1) :=
  ⟨by decide, c9_similarity_self (str "<p>x</p>") (by decide)⟩

/-- C7, counterexample: a plain TOC link pointing at the changed file — with
no quoted attribute after `class` — is NOT matched by the pattern and comes
out unchanged; and a link that does match gets the marker inserted after the
class attribute's closing quote, as a bare attribute, not inside the class
value. -/
theorem c7_toc_counterexample :
    highlightTocEntries (str "<a href=\"x.html\" class=\"nav\">y</a>") [str "x.html"] =
      str "<a href=\"x.html\" class=\"nav\">y</a>" ∧
    highlightTocEntries (str "<a href=\"x.html\" class=\"nav\" id=\"q\">y</a>")
        [str "x.html"] =
      str "<a href=\"x.html\" class=\"nav\" preview-toc-changed id=\"q\">y</a>" :=
  ⟨by rfl, by rfl⟩

/-- C7, amended: whenever the TOC pattern matches, the match decomposes the
document as `group1 ++ group2 ++ rest` with group 1 ending in `'"'` — the
closing quote of the `class` attribute — and the rewrite inserts
`" preview-toc-changed"` between the two groups: after the closing quote,
outside the class value (and the pattern requires a further quoted stretch in
group 2, so links without one are left untouched). -/
theorem c7_toc_marker_after_quote (file s g1 g2 rest : Str)
    (h : matchTocAt file s = some (g1, g2, rest)) :
    s = g1 ++ g2 ++ rest ∧
    (∃ g0, g1 = g0 ++ ['"']) ∧
    (∀ fuel, tocSubGo file (fuel + 1) s =
      g1 ++ str " preview-toc-changed" ++ g2 ++ tocSubGo file fuel rest) := by
  have hmain : s = g1 ++ g2 ++ rest ∧ (∃ g0, g1 = g0 ++ ['"']) := by
    unfold matchTocAt at h
    split at h
    · rename_i hpre
      obtain ⟨k1, h1⟩ := greedyStarSome _ _ _ _ h
      try dsimp only at h1
      split at h1
      · obtain ⟨k2, h2⟩ := greedyStarSome _ _ _ _ h1
        try dsimp only at h2
        split at h2
        · obtain ⟨k3, h3⟩ := greedyStarSome _ _ _ _ h2
          try dsimp only at h3
          split at h3
          · rename_i t4 heq4
            have hsuf4 : ∃ m, t4 = s.drop m := by
              refine dropSuffixTail (c := '"') ?_
              rw [← heq4]
              simp only [List.drop_drop]
              exact ⟨_, rfl⟩
            obtain ⟨k5, h5⟩ := greedyStarSome _ _ _ _ h3
            try dsimp only at h5
            split at h5
            · obtain ⟨k6, h6⟩ := greedyStarSome _ _ _ _ h5
              try dsimp only at h6
              split at h6
              · rename_i t6' heq6
                have hsuf6 : ∃ m, '"' :: t6' = s.drop m := by
                  rw [← heq6]
                  obtain ⟨m4, hm4⟩ := hsuf4
                  rw [hm4]
                  simp only [List.drop_drop]
                  exact ⟨_, rfl⟩
                have hsuf6' : ∃ m, t6' = s.drop m := dropSuffixTail hsuf6
                obtain ⟨k7, h7⟩ := greedyStarSome _ _ _ _ h6
                try dsimp only at h7
                split at h7
                · rename_i t8 heq8
                  have hsuf8 : ∃ m, t8 = t6'.drop m := by
                    refine dropSuffixTail (c := '"') ?_
                    rw [← heq8]
                    exact ⟨_, rfl⟩
                  obtain ⟨k9, h9⟩ := greedyStarSome _ _ _ _ h7
                  try dsimp only at h9
                  split at h9
                  · rename_i t10 heq10
                    have hsuf10 : ∃ m, t10 = t6'.drop m := by
                      refine dropSuffixTail (c := '>') ?_
                      rw [← heq10]
                      obtain ⟨m8, hm8⟩ := hsuf8
                      rw [hm8]
                      simp only [List.drop_drop]
                      exact ⟨_, rfl⟩
                    simp only [Option.some.injEq, Prod.mk.injEq] at h9
                    obtain ⟨hg1, hg2, hg3⟩ := h9
                    constructor
                    · rw [← hg1, ← hg2, ← hg3]
                      obtain ⟨m10, hm10⟩ := hsuf10
                      obtain ⟨m6', hm6'⟩ := hsuf6'
                      rw [List.append_assoc]
                      rw [hm10, takeDropConcat t6' m10]
                      rw [hm6', takeDropConcat s m6']
                    · obtain ⟨m6, hm6⟩ := hsuf6
                      have hm6len : m6 < s.length := by
                        by_contra hge
                        rw [List.drop_eq_nil_of_le (by omega)] at hm6
                        cases hm6
                      have ht6'eq : t6' = s.drop (m6 + 1) := by
                        have hd : ('"' :: t6').drop 1 = (s.drop m6).drop 1 := by
                          rw [hm6]
                        simpa [List.drop_drop] using hd
                      have ht6'len : t6'.length = s.length - (m6 + 1) := by
                        rw [ht6'eq, List.length_drop]
                      refine ⟨s.take m6, ?_⟩
                      rw [← hg1, ht6'len,
                        show s.length - (s.length - (m6 + 1)) = m6 + 1 from by omega]
                      rw [List.take_succ]
                      have hq : s[m6]? = some '"' := by
                        have hg := List.getElem?_drop s m6 0
                        rw [← hm6] at hg
                        simpa using hg.symm
                      rw [hq]
                      rfl
                  · simp at h9
                · simp at h7
              · simp at h6
            · simp at h5
          · simp at h3
        · simp at h2
      · simp at h1
    · simp at h
  refine ⟨hmain.1, hmain.2, ?_⟩
  intro fuel
  have hne : s ≠ [] := by
    intro hnil
    rw [hnil] at h
    simp [matchTocAt, List.isPrefixOf, str] at h
  rcases s with _ | ⟨c, s'⟩
  · exact absurd rfl hne
  · rw [tocSubGo, h]

/-- C7, witness: the decomposition at a concrete matching link — group 1 is
the prefix through the class attribute's closing quote, and the marker text
lands between the groups. -/
theorem c7_toc_marker_after_quote_witness :
    matchTocAt (str "x.html") (str "<a href=\"x.html\" class=\"nav\" id=\"q\">y</a>") =
      some (str "<a href=\"x.html\" class=\"nav\"", str " id=\"q\">", str "y</a>") ∧
    str "<a href=\"x.html\" class=\"nav\" id=\"q\">y</a>" =
      str "<a href=\"x.html\" class=\"nav\"" ++ str " id=\"q\">" ++ str "y</a>" ∧
    tocSubGo (str "x.html") 1 (str "<a href=\"x.html\" class=\"nav\" id=\"q\">y</a>") =
      str "<a href=\"x.html\" class=\"nav\"" ++ str " preview-toc-changed" ++
        str " id=\"q\">" ++ tocSubGo (str "x.html") 0 (str "y</a>") :=
  ⟨by rfl,
    (c7_toc_marker_after_quote (str "x.html")
      (str "<a href=\"x.html\" class=\"nav\" id=\"q\">y</a>")
      (str "<a href=\"x.html\" class=\"nav\"") (str " id=\"q\">") (str "y</a>")
      (by rfl)).1,
    (c7_toc_marker_after_quote (str "x.html")
      (str "<a href=\"x.html\" class=\"nav\" id=\"q\">y</a>")
      (str "<a href=\"x.html\" class=\"nav\"") (str " id=\"q\">") (str "y</a>")
      (by rfl)).2.2 0⟩

/-- C5, counterexample: a changed element whose text contains `\1` makes the
`re.sub` replacement-template parser raise `invalid group reference`, and the
pipeline propagates the error instead of returning an annotated document. -/
theorem c5_backslash_error_counterexample :
    processFile (str "<p>xx \\1</p>") (some (str "<p>xx q</p>")) =
      .error .invalidGroupRef ∧
    highlightChangedElements (str "<p>xx q</p>") (str "<p>xx \\1</p>") =
      .error .invalidGroupRef :=
  ⟨by rfl, by rfl⟩

/-- C5, amended: the orchestrator is total on documents free of backslashes —
for every old document (present, absent or malformed arbitrarily) and every
backslash-free new document it returns successfully; errors can arise solely
from `re.sub` replacement templates, whose text is drawn from the new
document plus the fixed marker literals. -/
theorem c5_no_error_without_backslash (newHtml : Str) (oldHtml : Option Str)
    (h : '\\' ∉ newHtml) : ∀ e, processFile newHtml oldHtml ≠ .error e := by
  intro e
  unfold processFile
  cases oldHtml with
  | none => simp
  | some old =>
    dsimp only
    by_cases ho : old = []
    · rw [if_pos ho]
      simp
    · rw [if_neg ho]
      obtain ⟨r, hr⟩ := hceNB old h
      intro hcon
      rw [hr] at hcon
      simp [Bind.bind, Except.bind, pure, Except.pure] at hcon

/-- C5, witness for the amended theorem at a concrete backslash-free pair. -/
theorem c5_no_error_without_backslash_witness :
    ('\\' ∉ str "<p>xx NEW</p>") ∧
    processFile (str "<p>xx NEW</p>") (some (str "<p>xx q</p>")) ≠
      .error .invalidGroupRef :=
  ⟨by decide, c5_no_error_without_backslash (str "<p>xx NEW</p>")
    (some (str "<p>xx q</p>")) (by decide) .invalidGroupRef⟩

/-- C3, counterexample: the document-level round trip fails — a stray `'<'`
in a changed element is dropped by the annotator's tokenizer, so stripping
every marker from the annotated output yields `<p>xx NEW </p>`, not the
original `<p>xx NEW <</p>`. -/
theorem c3_strip_roundtrip_counterexample :
    highlightChangedElements (str "<p>xx q</p>") (str "<p>xx NEW <</p>") =
      .ok (str "<p>xx <mark class=\"preview-text-changed\">NEW</mark> </p>", 1, [(0, 0)]) ∧
    stripMarks (str "<p>xx <mark class=\"preview-text-changed\">NEW</mark> </p>") =
      str "<p>xx NEW </p>" ∧
    str "<p>xx NEW </p>" ≠ str "<p>xx NEW <</p>" :=
  ⟨by rfl, by rfl, by decide⟩

/-- C3, amended: the round trip DOES hold for the wrapper itself — on any
`'<'`-free text token (the only kind the tokenizer feeds to the wrapper) and
any ascending, disjoint, in-bounds ranges tagged `replace`/`insert`, removing
the four marker literals from the wrapped output restores the token exactly.
The document-level identity fails only where the tokenizer loses characters
(stray `'<'`). -/
theorem c3_token_roundtrip (text : Str) (hlt : '<' ∉ text)
    (rs : List (ℕ × ℕ × SeqM.OpTag)) (hch : Chain3 text.length 0 rs) :
    stripMarks (ahGo text 0 rs) = text := by
  unfold stripMarks
  rw [stripAhGo hlt rs 0 _ hch (le_refl _)]
  simp

/-- C3, witness: a concrete wrapped token restored by stripping. -/
theorem c3_token_roundtrip_witness :
    ('<' ∉ str "ab c") ∧
    ahGo (str "ab c") 0 [(0, 2, SeqM.OpTag.replace)] =
      markChanged ++ str "ab" ++ markClose ++ str " c" ∧
    stripMarks (ahGo (str "ab c") 0 [(0, 2, SeqM.OpTag.replace)]) = str "ab c" :=
  ⟨by decide, by rfl,
    c3_token_roundtrip (str "ab c") (by decide) [(0, 2, SeqM.OpTag.replace)]
      ⟨Nat.le_refl 0, by omega, by decide, Or.inl rfl, trivial⟩⟩

/-- C2, witness: the modified branch at ratio 0.6 records the pair and the
used index. -/
theorem c2_matcher_classification_witness :
    extractTextFromElement (str "<p>xx NEW</p>") ≠ [] ∧
    (bestMatch [(str "xx q", str "<p>xx q</p>")] (extractTextFromElement (str "<p>xx NEW</p>")) []).1 =
      some 0 ∧
    (bestMatch [(str "xx q", str "<p>xx q</p>")] (extractTextFromElement (str "<p>xx NEW</p>")) []).2 =
      3 / 5 ∧
    ∀ st', hceStep [(str "xx q", str "<p>xx q</p>")] ([], str "<p>xx NEW</p>", 0, []) 0
        (str "<p>xx NEW</p>") = .ok st' →
      st'.1 = [0] ∧ st'.2.2.2 = [(0, 0)] := by
  refine ⟨by decide, by rfl, by rfl, ?_⟩
  intro st' hst
  have h := (c2_matcher_classification [(str "xx q", str "<p>xx q</p>")]
    ([], str "<p>xx NEW</p>", 0, []) 0 (str "<p>xx NEW</p>") (by decide)).2.2.1
    0 (by rfl) (by norm_num [show (bestMatch [(str "xx q", str "<p>xx q</p>")]
      (extractTextFromElement (str "<p>xx NEW</p>")) []).2 = 3/5 from rfl])
    (by norm_num [show (bestMatch [(str "xx q", str "<p>xx q</p>")]
      (extractTextFromElement (str "<p>xx NEW</p>")) []).2 = 3/5 from rfl]) st' hst
  simpa using h

end PSW
